import Mathlib

/-!
Verification of the DreamKG query-understanding and retrieval-orchestration
engine against its natural-language specification.

The definitions below are shallow embeddings of the Python source:
  * `cypher_query.py` (`QueryProcessor.generate_cypher_query`, the
    filter-specificity "focusing logic", lines 195-207);
  * `services/query_service.py` (`QueryService.process_query` retry state
    machine, lines 1366-1418, and `_normalize_service_keywords`, lines
    925-942);
  * `models/conversation_memory.py` (`add_interaction`, `clear_memory`);
  * `models/spatial_intelligence.py` (`geocode_location`,
    `get_distance_threshold`);
  * `config.py` (the configuration constants).

Machine floats of the source are modelled as rationals; Python `None` as
`Option.none`; Python dict iteration follows literal insertion order.
-/

namespace DreamKG

/-! ## Filter specificity (cypher_query.py lines 195-207)

`generate_cypher_query` computes, from the number of candidate matches each
resolver returned (`matching_times`, `matched_addresses`, `service_results`)
and the truthiness of the extracted keyword strings, which of the three
filters to apply.  We embed the keyword strings by their truthiness
(non-empty = `true`) and the candidate lists by their lengths. -/

structure FilterDecision where
  apply_time : Bool
  apply_loc : Bool
  apply_svc : Bool
deriving DecidableEq, Repr

/-- Embeds lines 196-207 of `cypher_query.py`:
`is_time_specific = 0 < len(matching_times) <= 5` (and likewise for the
other two), `specific_categories_exist` is their disjunction,
`apply_c = (c_keywords and (not specific_categories_exist or is_c_specific))`,
and finally the all-too-general override that forces every filter off. -/
def focusingLogic (timeKw locKw svcKw : Bool) (nTimes nAddrs nSvcs : Nat) :
    FilterDecision :=
  let is_time_specific := decide (0 < nTimes ∧ nTimes ≤ 5)
  let is_loc_specific := decide (0 < nAddrs ∧ nAddrs ≤ 5)
  let is_svc_specific := decide (0 < nSvcs ∧ nSvcs ≤ 5)
  let specific_categories_exist :=
    is_time_specific || is_loc_specific || is_svc_specific
  let apply_time := timeKw && (!specific_categories_exist || is_time_specific)
  let apply_loc := locKw && (!specific_categories_exist || is_loc_specific)
  let apply_svc := svcKw && (!specific_categories_exist || is_svc_specific)
  if !specific_categories_exist && decide (nTimes > 5) && decide (nAddrs > 5)
      && decide (nSvcs > 5) then
    ⟨false, false, false⟩
  else
    ⟨apply_time, apply_loc, apply_svc⟩

/-- Reference definition written from the specification's words (§4.4):
a category is *specific* when `0 < count <= 5`;
`anySpecific = specific(time) OR specific(location) OR specific(service)`;
per category with a non-empty phrase, `apply(c) = NOT anySpecific OR
specific(c)`; afterwards, if none is specific and all three counts exceed 5,
force `apply(*) = false`. -/
def specSpecific (count : Nat) : Bool := decide (0 < count ∧ count ≤ 5)

/-- The specification's decision rule (§4.4), evaluated in the spec's stated
order: per-category rule first, then the all-general override. -/
def specFilterDecision (timeKw locKw svcKw : Bool) (nTimes nAddrs nSvcs : Nat) :
    FilterDecision :=
  let anySpecific :=
    specSpecific nTimes || specSpecific nAddrs || specSpecific nSvcs
  let applyT := timeKw && (!anySpecific || specSpecific nTimes)
  let applyL := locKw && (!anySpecific || specSpecific nAddrs)
  let applyS := svcKw && (!anySpecific || specSpecific nSvcs)
  if !anySpecific && decide (nTimes > 5) && decide (nAddrs > 5)
      && decide (nSvcs > 5) then
    ⟨false, false, false⟩
  else
    ⟨applyT, applyL, applyS⟩

/-- C1: the code's filter-specificity decision coincides with the
specification's reference definition on all inputs: a category is specific
exactly when `0 < count <= 5`; a category with a non-empty extracted phrase
is filtered iff no category is specific or that category itself is; and when
no category is specific and all three candidate counts exceed 5, all three
filters are forced off. -/
theorem focusingLogic_eq_spec (timeKw locKw svcKw : Bool)
    (nTimes nAddrs nSvcs : Nat) :
    focusingLogic timeKw locKw svcKw nTimes nAddrs nSvcs =
      specFilterDecision timeKw locKw svcKw nTimes nAddrs nSvcs := by
  simp only [focusingLogic, specFilterDecision, specSpecific]

/-! ## Configuration constants (config.py) -/

namespace Config

/-- `config.py` line 35. -/
def MAX_CONVERSATION_HISTORY : Nat := 5

/-- `config.py` line 39 (miles). -/
def DEFAULT_DISTANCE_THRESHOLD : ℚ := 8/10

/-- `config.py` line 40 (miles). -/
def EXPANDED_DISTANCE_THRESHOLD : ℚ := 11/10

end Config

/-! ## Records and query results

Neo4j records are Python dicts; conversation memory only ever reads the
fields `'o.name'`, `'name'` and `'organizationName'`, so a record is
embedded by those three optional string fields (absent key = `none`).
All embedded records model dict results (the `isinstance(result, dict)`
guard of `add_interaction` is always passed). -/

structure Record where
  oName : Option String := none
  name : Option String := none
  organizationName : Option String := none
deriving DecidableEq, Repr

/-- Python truthiness of an optional string (`None` and `''` are falsy). -/
def pyTruthyStr : Option String → Bool
  | none => false
  | some s => !s.isEmpty

/-- Python `a or b` on optional strings. -/
def pyOr (a b : Option String) : Option String :=
  if pyTruthyStr a then a else b

/-- Python truthiness of an optional record list (`None` and `[]` falsy);
`pyFalsy r = true` models `not results`. -/
def pyFalsy : Option (List Record) → Bool
  | none => true
  | some l => l.isEmpty

/-- Result of one retrieval attempt as returned by the query helpers of
`query_service.py`: the `success` flag and the `results` entry
(`none` models Python `None`). -/
structure AttemptResult where
  success : Bool
  results : Option (List Record)
deriving DecidableEq, Repr

/-! ## Retrieval orchestrator (query_service.py lines 1366-1409)

`process_query` executes the default-radius attempt, then—only when it
succeeded with an empty result list—an expanded-radius attempt (gated on
`is_spatial_query and distance_threshold < Config.EXPANDED_DISTANCE_THRESHOLD`),
then—only when the expanded attempt's results are empty—a closest-match
attempt whose spatial context drops the distance threshold and limits the
result to one record.  The embedding records which attempts were executed,
with their parameters, in a trace. -/

inductive Stage
  | defaultRadius
  | expandedRadius
  | closestMatch
deriving DecidableEq, Repr

inductive AttemptCall
  /-- the initial query (`_execute_cypher_query_with_enhanced_metrics`),
  at the resolved threshold -/
  | defaultRadius (threshold : ℚ)
  /-- `_retry_with_expanded_radius_and_enhanced_metrics`, at the expanded
  threshold -/
  | expandedRadius (threshold : ℚ)
  /-- `_find_closest_organization_with_enhanced_metrics`: no distance
  threshold, result limited to one record -/
  | closestMatch (threshold : Option ℚ) (limit : Option Nat)
deriving DecidableEq, Repr

def AttemptCall.stage : AttemptCall → Stage
  | .defaultRadius _ => .defaultRadius
  | .expandedRadius _ => .expandedRadius
  | .closestMatch _ _ => .closestMatch

structure OrchestratorInput where
  isSpatial : Bool
  distanceThreshold : ℚ
  defaultAttempt : AttemptResult
  expandedAttempt : AttemptResult
  closestAttempt : AttemptResult
deriving DecidableEq, Repr

structure OrchestratorOutcome where
  finalResult : AttemptResult
  expandedRadius : Bool
  closestSearch : Bool
  trace : List AttemptCall
deriving DecidableEq, Repr

/-- Embeds lines 1366-1409 of `query_service.py`.  The three attempt
results are supplied as inputs (the graph backend and the LLM are external
collaborators); an attempt result is consumed only if the corresponding
call is reached, and every executed call is recorded in the trace. -/
def runRetrieval (inp : OrchestratorInput) : OrchestratorOutcome :=
  let q := inp.defaultAttempt
  let dCall := AttemptCall.defaultRadius inp.distanceThreshold
  let eCall := AttemptCall.expandedRadius Config.EXPANDED_DISTANCE_THRESHOLD
  let cCall := AttemptCall.closestMatch none (some 1)
  if q.success && pyFalsy q.results then
    if inp.isSpatial
        && decide (inp.distanceThreshold < Config.EXPANDED_DISTANCE_THRESHOLD)
        then
      let e := inp.expandedAttempt
      if e.success && !pyFalsy e.results then
        ⟨e, true, false, [dCall, eCall]⟩
      else if pyFalsy e.results && inp.isSpatial then
        let c := inp.closestAttempt
        if c.success && !pyFalsy c.results then
          ⟨c, true, true, [dCall, eCall, cCall]⟩
        else
          ⟨q, false, false, [dCall, eCall, cCall]⟩
      else
        ⟨q, false, false, [dCall, eCall]⟩
    else
      ⟨q, false, false, [dCall]⟩
  else
    ⟨q, false, false, [dCall]⟩

/-- C3: every invocation of the retrieval orchestrator executes at most
three attempts, in the fixed order default radius → expanded radius →
closest match, and never re-enters a stage after leaving it: the stage
trace is always a prefix of `[defaultRadius, expandedRadius, closestMatch]`. -/
theorem runRetrieval_trace_prefix (inp : OrchestratorInput) :
    ((runRetrieval inp).trace.map AttemptCall.stage) <+:
      [Stage.defaultRadius, Stage.expandedRadius, Stage.closestMatch] ∧
    (runRetrieval inp).trace.length ≤ 3 := by
  have h : (runRetrieval inp).trace.map AttemptCall.stage =
        [Stage.defaultRadius] ∨
      (runRetrieval inp).trace.map AttemptCall.stage =
        [Stage.defaultRadius, Stage.expandedRadius] ∨
      (runRetrieval inp).trace.map AttemptCall.stage =
        [Stage.defaultRadius, Stage.expandedRadius, Stage.closestMatch] := by
    unfold runRetrieval
    dsimp only
    repeat' split
    all_goals simp [AttemptCall.stage]
  have hlen : (runRetrieval inp).trace.length =
      ((runRetrieval inp).trace.map AttemptCall.stage).length := by
    simp
  rcases h with h | h | h <;> rw [hlen, h] <;>
    exact ⟨by decide, by decide⟩

/-- C2 counterexample: the claim as stated quantifies over *every* spatial
query, but `process_query` gates the expanded-radius retry on
`distance_threshold < Config.EXPANDED_DISTANCE_THRESHOLD`.  A spatial query
whose resolved threshold is 3.0 miles (e.g. the text contains "driving
distance") and whose default-radius attempt succeeds with zero records
executes no expanded-radius attempt at all. -/
theorem runRetrieval_expansion_counterexample :
    (OrchestratorInput.mk true 3 ⟨true, some []⟩ ⟨true, some []⟩
        ⟨true, some []⟩).isSpatial = true ∧
    (OrchestratorInput.mk true 3 ⟨true, some []⟩ ⟨true, some []⟩
        ⟨true, some []⟩).defaultAttempt = ⟨true, some []⟩ ∧
    ((runRetrieval (OrchestratorInput.mk true 3 ⟨true, some []⟩
        ⟨true, some []⟩ ⟨true, some []⟩)).trace.map AttemptCall.stage) =
      [Stage.defaultRadius] := by
  refine ⟨rfl, rfl, ?_⟩
  have h3 : ¬((3 : ℚ) < Config.EXPANDED_DISTANCE_THRESHOLD) := by
    norm_num [Config.EXPANDED_DISTANCE_THRESHOLD]
  simp [runRetrieval, pyFalsy, h3, AttemptCall.stage]

/-- C2 (amended): for every spatial query whose resolved distance threshold
is below the configured expanded threshold and whose default-radius attempt
succeeds with zero records, exactly one expanded-radius attempt is executed
before any closest-match attempt; and if the expanded attempt also returns
zero records, exactly one closest-match attempt is executed, with no
distance threshold and the result limited to 1 record. -/
theorem runRetrieval_expansion_fallback (inp : OrchestratorInput)
    (hsp : inp.isSpatial = true)
    (hthr : inp.distanceThreshold < Config.EXPANDED_DISTANCE_THRESHOLD)
    (hds : inp.defaultAttempt.success = true)
    (hdr : inp.defaultAttempt.results = some []) :
    ((runRetrieval inp).trace.map AttemptCall.stage =
        [Stage.defaultRadius, Stage.expandedRadius] ∨
      (runRetrieval inp).trace.map AttemptCall.stage =
        [Stage.defaultRadius, Stage.expandedRadius, Stage.closestMatch]) ∧
    ((runRetrieval inp).trace.map AttemptCall.stage).count
        Stage.expandedRadius = 1 ∧
    (inp.expandedAttempt.results = some [] →
      ((runRetrieval inp).trace.map AttemptCall.stage).count
          Stage.closestMatch = 1 ∧
      (runRetrieval inp).trace.getLast? =
        some (AttemptCall.closestMatch none (some 1))) := by
  unfold runRetrieval
  dsimp only
  simp only [hds, hdr, hsp, pyFalsy, List.isEmpty_nil, Bool.and_self,
    decide_eq_true hthr, if_true, Bool.true_and]
  split
  · simp [AttemptCall.stage]
    rename_i hcond
    intro he
    rw [he] at hcond
    simp [pyFalsy] at hcond
  · split
    · split
      · simp [AttemptCall.stage]
      · simp [AttemptCall.stage]
    · rename_i hcond
      refine ⟨Or.inl (by simp [AttemptCall.stage]), by simp [AttemptCall.stage], ?_⟩
      intro he
      rw [he] at hcond
      simp [pyFalsy] at hcond

/-- C2 witness: a concrete spatial input at the default 0.8-mile threshold
with an empty default attempt, instantiating the amended theorem. -/
theorem runRetrieval_expansion_fallback_witness :
    ((runRetrieval (OrchestratorInput.mk true (8/10) ⟨true, some []⟩
        ⟨true, some []⟩ ⟨true, some [{ oName := some "Org" }]⟩)).trace.map
          AttemptCall.stage =
        [Stage.defaultRadius, Stage.expandedRadius] ∨
      (runRetrieval (OrchestratorInput.mk true (8/10) ⟨true, some []⟩
        ⟨true, some []⟩ ⟨true, some [{ oName := some "Org" }]⟩)).trace.map
          AttemptCall.stage =
        [Stage.defaultRadius, Stage.expandedRadius, Stage.closestMatch]) ∧
    ((runRetrieval (OrchestratorInput.mk true (8/10) ⟨true, some []⟩
        ⟨true, some []⟩ ⟨true, some [{ oName := some "Org" }]⟩)).trace.map
          AttemptCall.stage).count Stage.expandedRadius = 1 ∧
    ((OrchestratorInput.mk true (8/10) ⟨true, some []⟩ ⟨true, some []⟩
        ⟨true, some [{ oName := some "Org" }]⟩).expandedAttempt.results =
          some [] →
      ((runRetrieval (OrchestratorInput.mk true (8/10) ⟨true, some []⟩
        ⟨true, some []⟩ ⟨true, some [{ oName := some "Org" }]⟩)).trace.map
          AttemptCall.stage).count Stage.closestMatch = 1 ∧
      (runRetrieval (OrchestratorInput.mk true (8/10) ⟨true, some []⟩
        ⟨true, some []⟩ ⟨true, some [{ oName := some "Org" }]⟩)).trace.getLast? =
        some (AttemptCall.closestMatch none (some 1))) :=
  runRetrieval_expansion_fallback _ rfl
    (by norm_num [Config.EXPANDED_DISTANCE_THRESHOLD]) rfl rfl

/-- Caller-visible response of `process_query`: the dict literal at lines
1420-1441 of `query_service.py`.  `error` is `none` when the dict has no
`'error'` key. -/
structure ProcessQueryReturn where
  success : Bool
  results : Option (List Record)
  error : Option String
  expandedRadius : Bool
  closestSearch : Bool
deriving DecidableEq, Repr

/-- Lines 1420-1441: the return value built from the internal
`query_result` at the end of the (exception-free) body of `process_query`.
The literal hardcodes `'success': True` and contains no `'error'` entry,
whatever the internal attempt reported; `results`, `expanded_radius` and
`closest_search` are read from `query_result`. -/
def processQueryReturn (out : OrchestratorOutcome) : ProcessQueryReturn :=
  ⟨true, out.finalResult.results, none, out.expandedRadius,
    out.closestSearch⟩

/-- C4 counterexample: the claim's clause "the failure is returned to the
caller" is false of the program.  A default-radius attempt that fails with
a backend error (`success = false`, `results = None`) triggers no fallback
attempt, but `process_query`'s final return (lines 1420-1441) hardcodes
`'success': True` and drops the error, so the caller receives a successful
outcome with `results = None` and no error entry. -/
theorem processQuery_failure_not_surfaced :
    (OrchestratorInput.mk true (8/10) ⟨false, none⟩ ⟨true, some []⟩
        ⟨true, some []⟩).defaultAttempt.success = false ∧
    (runRetrieval (OrchestratorInput.mk true (8/10) ⟨false, none⟩
        ⟨true, some []⟩ ⟨true, some []⟩)).trace.map AttemptCall.stage =
      [Stage.defaultRadius] ∧
    processQueryReturn (runRetrieval (OrchestratorInput.mk true (8/10)
        ⟨false, none⟩ ⟨true, some []⟩ ⟨true, some []⟩)) =
      ⟨true, none, none, false, false⟩ := by
  refine ⟨rfl, ?_, ?_⟩ <;>
    simp [runRetrieval, processQueryReturn, AttemptCall.stage]

/-- C4 (amended): retries are triggered only by empty results, never by a
failed attempt: when the default-radius attempt fails with a backend error
(`success = false`), no expanded-radius or closest-match attempt is
executed and both fallback flags are off — but the failure is not surfaced
to the caller: the caller-visible return of `process_query` reports
`success = True` with no error entry, passing through the failed attempt's
`results` field. -/
theorem runRetrieval_no_retry_on_failure (inp : OrchestratorInput)
    (h : inp.defaultAttempt.success = false) :
    (runRetrieval inp).trace.map AttemptCall.stage =
      [Stage.defaultRadius] ∧
    (runRetrieval inp).expandedRadius = false ∧
    (runRetrieval inp).closestSearch = false ∧
    processQueryReturn (runRetrieval inp) =
      ⟨true, inp.defaultAttempt.results, none, false, false⟩ := by
  unfold runRetrieval
  dsimp only
  rw [h]
  simp [AttemptCall.stage, processQueryReturn]

/-- C4 witness: a concrete failed default attempt (backend error, spatial
query) triggers no fallback attempts and reaches the caller as a
successful outcome with no results and no error. -/
theorem runRetrieval_no_retry_on_failure_witness :
    (OrchestratorInput.mk true (8/10) ⟨false, none⟩ ⟨true, some []⟩
        ⟨true, some []⟩).defaultAttempt.success = false ∧
    ((runRetrieval (OrchestratorInput.mk true (8/10) ⟨false, none⟩
        ⟨true, some []⟩ ⟨true, some []⟩)).trace.map AttemptCall.stage =
      [Stage.defaultRadius] ∧
    (runRetrieval (OrchestratorInput.mk true (8/10) ⟨false, none⟩
        ⟨true, some []⟩ ⟨true, some []⟩)).expandedRadius = false ∧
    (runRetrieval (OrchestratorInput.mk true (8/10) ⟨false, none⟩
        ⟨true, some []⟩ ⟨true, some []⟩)).closestSearch = false ∧
    processQueryReturn (runRetrieval (OrchestratorInput.mk true (8/10)
        ⟨false, none⟩ ⟨true, some []⟩ ⟨true, some []⟩)) =
      ⟨true, none, none, false, false⟩) :=
  ⟨rfl, runRetrieval_no_retry_on_failure _ rfl⟩

/-! ## Conversation memory (models/conversation_memory.py)

`ConversationMemory` holds a bounded history of interactions plus cached
context for follow-up queries.  `datetime.now()` is modelled by an explicit
clock value passed to `add_interaction`. -/

/-- The dictionary built by `create_spatial_info`
(spatial_intelligence.py lines 459-475). -/
structure SpatialInfo where
  location_text : String
  coordinates : ℚ × ℚ
  distance_threshold : Option ℚ
deriving DecidableEq, Repr

/-- The interaction dictionary appended by `add_interaction`
(conversation_memory.py lines 57-64). -/
structure Turn where
  query : String
  results : List Record
  organization_names : List String
  spatial_info : Option SpatialInfo
  timestamp : Nat
deriving DecidableEq, Repr

structure ConversationMemory where
  max_history : Nat
  conversation_history : List Turn
  current_context : Option (List Record)
  last_query : Option String
  last_organizations : List String
  last_spatial_info : Option SpatialInfo
deriving DecidableEq, Repr

/-- `ConversationMemory.__init__`: `max_history or Config.MAX_CONVERSATION_HISTORY`
(a supplied `0` is falsy in Python and also falls back to the default). -/
def ConversationMemory.init (max_history : Option Nat) : ConversationMemory where
  max_history :=
    match max_history with
    | some k => if k = 0 then Config.MAX_CONVERSATION_HISTORY else k
    | none => Config.MAX_CONVERSATION_HISTORY
  conversation_history := []
  current_context := none
  last_query := none
  last_organizations := []
  last_spatial_info := none

/-- Lines 41-54 of `add_interaction`: collect, for each dict record, the
first truthy value among `result.get('o.name')`, `result.get('name')`,
`result.get('organizationName')`. -/
def extractOrganizationNames (results : List Record) : List String :=
  results.foldl
    (fun acc r =>
      let org_name := pyOr (pyOr r.oName r.name) r.organizationName
      if pyTruthyStr org_name then acc ++ [org_name.getD ""] else acc)
    []

/-- The turn that `add_interaction` constructs for the given inputs. -/
def mkTurn (query : String) (results : List Record)
    (spatial_info : Option SpatialInfo) (now : Nat) : Turn :=
  ⟨query, results, extractOrganizationNames results, spatial_info, now⟩

/-- `ConversationMemory.add_interaction` (lines 31-74): append the new
interaction, refresh the cached context fields, and `pop(0)` the oldest
turn when the history exceeds `max_history`. -/
def ConversationMemory.add_interaction (mem : ConversationMemory)
    (query : String) (results : List Record)
    (spatial_info : Option SpatialInfo) (now : Nat) : ConversationMemory :=
  let turn := mkTurn query results spatial_info now
  let hist := mem.conversation_history ++ [turn]
  { mem with
    conversation_history :=
      if hist.length > mem.max_history then hist.tail else hist
    current_context := some results
    last_query := some query
    last_organizations := turn.organization_names
    last_spatial_info := spatial_info }

/-- `ConversationMemory.clear_memory` (lines 255-262). -/
def ConversationMemory.clear_memory (mem : ConversationMemory) :
    ConversationMemory :=
  { mem with
    conversation_history := []
    current_context := none
    last_query := none
    last_organizations := []
    last_spatial_info := none }

/-- Step 7 of `process_query` (query_service.py lines 1411-1418): with a
fresh (non-memory) query, a truthy result list is stored as a new
interaction and a falsy one clears the memory; a memory-answered query
leaves the memory unchanged. -/
def updateMemoryAfterQuery (mem : ConversationMemory) (use_memory : Bool)
    (user_query : String) (results : Option (List Record))
    (spatial_info : Option SpatialInfo) (now : Nat) : ConversationMemory :=
  if !pyFalsy results && !use_memory then
    mem.add_interaction user_query (results.getD []) spatial_info now
  else if pyFalsy results && !use_memory then
    mem.clear_memory
  else
    mem

/-- Iterated `add_interaction` over a list of inputs. -/
def foldAdds (mem : ConversationMemory)
    (inputs : List (String × List Record × Option SpatialInfo × Nat)) :
    ConversationMemory :=
  inputs.foldl
    (fun m i => m.add_interaction i.1 i.2.1 i.2.2.1 i.2.2.2) mem

theorem add_interaction_history (mem : ConversationMemory) (q : String)
    (rs : List Record) (sp : Option SpatialInfo) (now : Nat)
    (hle : mem.conversation_history.length ≤ mem.max_history) :
    (mem.add_interaction q rs sp now).conversation_history =
      (mem.conversation_history ++ [mkTurn q rs sp now]).drop
        ((mem.conversation_history.length + 1) - mem.max_history) := by
  unfold ConversationMemory.add_interaction
  dsimp only
  split
  · rename_i h
    simp only [List.length_append, List.length_cons, List.length_nil] at h
    have hd : mem.conversation_history.length + 1 - mem.max_history = 1 := by
      omega
    rw [hd, List.drop_one]
  · rename_i h
    simp only [List.length_append, List.length_cons, List.length_nil] at h
    have hd : mem.conversation_history.length + 1 - mem.max_history = 0 := by
      omega
    rw [hd, List.drop_zero]

theorem foldAdds_history (inputs : List (String × List Record ×
      Option SpatialInfo × Nat)) :
    ∀ (mem : ConversationMemory),
      mem.conversation_history.length ≤ mem.max_history →
      (foldAdds mem inputs).conversation_history =
        (mem.conversation_history ++
          inputs.map (fun i => mkTurn i.1 i.2.1 i.2.2.1 i.2.2.2)).drop
            ((mem.conversation_history.length + inputs.length) -
              mem.max_history) ∧
      (foldAdds mem inputs).max_history = mem.max_history := by
  induction inputs with
  | nil =>
    intro mem hle
    have h0 : mem.conversation_history.length - mem.max_history = 0 := by
      omega
    simp [foldAdds, h0]
  | cons a rest ih =>
    intro mem hle
    have hstep := add_interaction_history mem a.1 a.2.1 a.2.2.1 a.2.2.2 hle
    have hmax : (mem.add_interaction a.1 a.2.1 a.2.2.1 a.2.2.2).max_history =
        mem.max_history := rfl
    have hlen : (mem.add_interaction a.1 a.2.1 a.2.2.1
        a.2.2.2).conversation_history.length ≤ mem.max_history := by
      rw [hstep]
      simp only [List.length_drop, List.length_append, List.length_cons,
        List.length_nil]
      omega
    have hfold : foldAdds mem (a :: rest) =
        foldAdds (mem.add_interaction a.1 a.2.1 a.2.2.1 a.2.2.2) rest := rfl
    rw [hfold]
    obtain ⟨hih, hihmax⟩ := ih (mem.add_interaction a.1 a.2.1 a.2.2.1 a.2.2.2)
      (by rw [hmax]; exact hlen)
    rw [hihmax, hmax] at *
    refine ⟨?_, by rw [hihmax, hmax]⟩
    rw [hih, hstep, hmax]
    set X := mem.conversation_history ++ [mkTurn a.1 a.2.1 a.2.2.1 a.2.2.2]
      with hX
    set Y := rest.map (fun i => mkTurn i.1 i.2.1 i.2.2.1 i.2.2.2) with hY
    have hXlen : X.length = mem.conversation_history.length + 1 := by
      rw [hX]; simp
    set d := mem.conversation_history.length + 1 - mem.max_history with hd
    have hdle : d ≤ X.length := by omega
    have h1 : (X.drop d) ++ Y = (X ++ Y).drop d := by
      rw [List.drop_append_of_le_length hdle]
    have h2 : ((X.drop d).length + rest.length) - mem.max_history =
        (mem.conversation_history.length + 1 - d + rest.length) -
          mem.max_history := by
      simp only [List.length_drop, hXlen]
    rw [h2, h1, List.drop_drop]
    have h3 : mem.conversation_history ++
        (mkTurn a.1 a.2.1 a.2.2.1 a.2.2.2 ::
          rest.map (fun i => mkTurn i.1 i.2.1 i.2.2.1 i.2.2.2)) = X ++ Y := by
      rw [hX, hY]; simp
    rw [List.map_cons, h3]
    congr 1
    simp only [List.length_cons]
    omega

/-- C7: `ConversationMemory` is a bounded FIFO: `add_interaction` preserves
`len(history) <= max_history`, and from a fresh memory with bound `N ≥ 1`,
after `N + 1` calls the history holds exactly the last `N` turns in order —
the first-added turn has been evicted. -/
theorem conversationMemory_bounded_fifo :
    (∀ (mem : ConversationMemory) (q : String) (rs : List Record)
        (sp : Option SpatialInfo) (now : Nat),
      mem.conversation_history.length ≤ mem.max_history →
      (mem.add_interaction q rs sp now).conversation_history.length ≤
        mem.max_history) ∧
    (∀ (N : Nat) (inputs : List (String × List Record ×
        Option SpatialInfo × Nat)),
      0 < N → inputs.length = N + 1 →
      (foldAdds (ConversationMemory.init (some N))
          inputs).conversation_history =
        (inputs.map (fun i => mkTurn i.1 i.2.1 i.2.2.1 i.2.2.2)).tail ∧
      (foldAdds (ConversationMemory.init (some N))
          inputs).conversation_history.length = N) := by
  constructor
  · intro mem q rs sp now hle
    rw [add_interaction_history _ _ _ _ _ hle]
    simp only [List.length_drop, List.length_append, List.length_cons,
      List.length_nil]
    omega
  · intro N inputs hN hlen
    have hinit : (ConversationMemory.init (some N)).max_history = N := by
      unfold ConversationMemory.init
      simp only
      rw [if_neg (by omega)]
    have h0 : (ConversationMemory.init
        (some N)).conversation_history.length ≤
        (ConversationMemory.init (some N)).max_history := by
      unfold ConversationMemory.init
      simp
    obtain ⟨hh, _⟩ := foldAdds_history inputs _ h0
    rw [hh, hinit]
    have hhist0 : (ConversationMemory.init
        (some N)).conversation_history = [] := rfl
    rw [hhist0]
    simp only [List.nil_append, List.length_nil, Nat.zero_add, hlen]
    have : N + 1 - N = 1 := by omega
    rw [this, List.drop_one]
    refine ⟨rfl, ?_⟩
    simp [hlen]

/-- C7 witness: with the default bound 5, six interactions leave exactly the
last five turns, the first turn evicted. -/
theorem conversationMemory_bounded_fifo_witness :
    (((ConversationMemory.init none).add_interaction "q" [] none
        0).conversation_history.length ≤
      (ConversationMemory.init none).max_history) ∧
    ((foldAdds (ConversationMemory.init (some 5))
        ([("q1", [], none, 1), ("q2", [], none, 2), ("q3", [], none, 3),
          ("q4", [], none, 4), ("q5", [], none, 5),
          ("q6", [], none, 6)])).conversation_history =
      ([("q1", ([] : List Record), (none : Option SpatialInfo), 1),
        ("q2", [], none, 2), ("q3", [], none, 3), ("q4", [], none, 4),
        ("q5", [], none, 5), ("q6", [], none, 6)].map
          (fun i => mkTurn i.1 i.2.1 i.2.2.1 i.2.2.2)).tail ∧
      (foldAdds (ConversationMemory.init (some 5))
        ([("q1", [], none, 1), ("q2", [], none, 2), ("q3", [], none, 3),
          ("q4", [], none, 4), ("q5", [], none, 5),
          ("q6", [], none, 6)])).conversation_history.length = 5) :=
  ⟨conversationMemory_bounded_fifo.1 (ConversationMemory.init none) "q" []
      none 0 (by decide),
    conversationMemory_bounded_fifo.2 5 _ (by decide) rfl⟩

/-- C6: after the orchestrator finishes a query not answered from memory:
a non-empty final result list appends exactly one new conversation turn
(the history either grows by that turn or, at capacity, drops only its
oldest entry, and the new turn is the last one); an empty final result list
clears the memory, leaving no stored turns, context, last query, or
organization names. -/
theorem memory_update_after_query (mem : ConversationMemory)
    (user_query : String) (results : Option (List Record))
    (sp : Option SpatialInfo) (now : Nat)
    (hpos : 0 < mem.max_history)
    (hle : mem.conversation_history.length ≤ mem.max_history) :
    (∀ rs, results = some rs → rs ≠ [] →
      ((updateMemoryAfterQuery mem false user_query results sp
          now).conversation_history =
        mem.conversation_history ++ [mkTurn user_query rs sp now] ∨
       (updateMemoryAfterQuery mem false user_query results sp
          now).conversation_history =
        (mem.conversation_history ++ [mkTurn user_query rs sp now]).tail) ∧
      (updateMemoryAfterQuery mem false user_query results sp
          now).conversation_history.getLast? =
        some (mkTurn user_query rs sp now)) ∧
    (results = some [] →
      (updateMemoryAfterQuery mem false user_query results sp now) =
        mem.clear_memory ∧
      (updateMemoryAfterQuery mem false user_query results sp
          now).conversation_history = [] ∧
      (updateMemoryAfterQuery mem false user_query results sp
          now).current_context = none ∧
      (updateMemoryAfterQuery mem false user_query results sp
          now).last_query = none ∧
      (updateMemoryAfterQuery mem false user_query results sp
          now).last_organizations = []) := by
  constructor
  · intro rs hrs hne
    have hfal : pyFalsy results = false := by
      rw [hrs]
      simp [pyFalsy, hne]
    have hq : updateMemoryAfterQuery mem false user_query results sp now =
        mem.add_interaction user_query rs sp now := by
      unfold updateMemoryAfterQuery
      rw [hfal, hrs]
      rfl
    rw [hq, add_interaction_history _ _ _ _ _ hle]
    constructor
    · by_cases hcap :
        mem.conversation_history.length + 1 - mem.max_history = 0
      · left; rw [hcap, List.drop_zero]
      · right
        have : mem.conversation_history.length + 1 - mem.max_history = 1 := by
          omega
        rw [this, List.drop_one]
    · rcases Nat.eq_zero_or_pos
        (mem.conversation_history.length + 1 - mem.max_history) with h | h
      · rw [h, List.drop_zero]
        exact List.getLast?_concat _
      · have h1 : mem.conversation_history.length + 1 - mem.max_history = 1 := by
          omega
        obtain ⟨h0, hrest, hcase⟩ :
            ∃ h0 hrest, mem.conversation_history = h0 :: hrest := by
          cases hx : mem.conversation_history with
          | nil =>
            exfalso
            rw [hx] at h1
            simp at h1
            omega
          | cons b l => exact ⟨b, l, rfl⟩
        rw [h1, List.drop_one, hcase]
        simp only [List.cons_append, List.tail_cons]
        exact List.getLast?_concat _
  · intro hrs
    have hq : updateMemoryAfterQuery mem false user_query results sp now =
        mem.clear_memory := by
      unfold updateMemoryAfterQuery
      rw [hrs]
      rfl
    rw [hq]
    exact ⟨rfl, rfl, rfl, rfl, rfl⟩

/-- C6 witness: a fresh one-record success is appended as a turn; a fresh
empty result clears the memory. -/
theorem memory_update_after_query_witness :
    ((updateMemoryAfterQuery (ConversationMemory.init none) false "q"
        (some [{ oName := some "Org" }]) none
        7).conversation_history =
      (ConversationMemory.init none).conversation_history ++
        [mkTurn "q" [{ oName := some "Org" }] none 7] ∨
     (updateMemoryAfterQuery (ConversationMemory.init none) false "q"
        (some [{ oName := some "Org" }]) none
        7).conversation_history =
      ((ConversationMemory.init none).conversation_history ++
        [mkTurn "q" [{ oName := some "Org" }] none 7]).tail) ∧
    (updateMemoryAfterQuery (ConversationMemory.init none) false "q"
        (some []) none 7) =
      (ConversationMemory.init none).clear_memory :=
  ⟨((memory_update_after_query (ConversationMemory.init none) "q"
      (some [{ oName := some "Org" }]) none 7 (by decide) (by decide)).1
      [{ oName := some "Org" }] rfl (by decide)).1,
    ((memory_update_after_query (ConversationMemory.init none) "q"
      (some []) none 7 (by decide) (by decide)).2 rfl).1⟩

/-! ## Python string primitives

Character-list models of the Python string operations the source uses:
`needle in haystack`, `str.lower()`, digit/whitespace classes. -/

/-- `p` is a prefix of `s` (plain character equality). -/
def chPrefix : List Char → List Char → Bool
  | [], _ => true
  | _ :: _, [] => false
  | a :: p, c :: s => a == c && chPrefix p s

/-- `p` occurs as a contiguous substring of `s`: Python `p in s`. -/
def chContains (s p : List Char) : Bool :=
  match s with
  | [] => p.isEmpty
  | _ :: rest => chPrefix p s || chContains rest p

/-- Python `needle in haystack` on strings. -/
def pyIn (needle haystack : String) : Bool :=
  chContains haystack.data needle.data

/-- Python `str.lower()` (ASCII-faithful). -/
def pyLower (s : String) : String :=
  String.mk (s.data.map Char.toLower)

/-- Python `\s` character class (ASCII part). -/
def pyIsSpace (c : Char) : Bool :=
  c == ' ' || c == '\t' || c == '\n' || c == '\r' ||
    c == '\x0b' || c == '\x0c'

/-! ## Spatial intelligence: geocoding (spatial_intelligence.py lines 155-199)

`geocode_location` consults the in-memory `geocoding_cache`, then the
`PHILLY_LANDMARKS` gazetteer, then the Nominatim provider with the fixed
", Philadelphia, PA" qualifier.  The external provider is modelled by an
oracle returning either coordinates, a no-match, or one of the raised
exception classes; all exception outcomes are caught and mapped to `None`.
The coordinate strings of `config.py` lines 54-68 are embedded as the
rationals they denote. -/

inductive GeoOutcome
  | found (lat lon : ℚ)
  | notFound
  | timedOut
  | serviceError
  | otherError
deriving DecidableEq, Repr

/-- The external geocoding provider (`geolocator.geocode`). -/
abbrev Geocoder := String → GeoOutcome

/-- The session cache `self.geocoding_cache` (a Python dict keyed by the
exact phrase; insertion shadows). -/
abbrev GeoCache := List (String × (ℚ × ℚ))

def cacheLookup : GeoCache → String → Option (ℚ × ℚ)
  | [], _ => none
  | (k, v) :: rest, p => if k = p then some v else cacheLookup rest p

def cacheInsert (c : GeoCache) (k : String) (v : ℚ × ℚ) : GeoCache :=
  (k, v) :: c

/-- `Config.PHILLY_LANDMARKS` (config.py lines 54-68), in dict order. -/
def phillyLandmarks : List (String × ℚ × ℚ) :=
  [("city hall", 39952335/1000000, -75163789/1000000),
   ("liberty bell", 399496/10000, -751503/10000),
   ("independence hall", 399487/10000, -751503/10000),
   ("temple university", 399812/10000, -751556/10000),
   ("university of pennsylvania", 399522/10000, -751932/10000),
   ("drexel university", 399566/10000, -751899/10000),
   ("center city", 399526/10000, -751652/10000),
   ("south philly", 399184/10000, -751718/10000),
   ("north philly", 400059/10000, -751380/10000),
   ("west philly", 399612/10000, -752397/10000),
   ("rittenhouse square", 399486/10000, -751723/10000),
   ("fishtown", 399759/10000, -751370/10000),
   ("northern liberties", 399670/10000, -751410/10000)]

/-- Lines 172-177: the first gazetteer entry whose name is a substring of
the lowercased phrase. -/
def findLandmarkCoords : List (String × ℚ × ℚ) → String → Option (ℚ × ℚ)
  | [], _ => none
  | (name, lat, lon) :: rest, ll =>
    if pyIn name ll then some (lat, lon) else findLandmarkCoords rest ll

structure GeocodeResult where
  coords : Option (ℚ × ℚ)
  cache : GeoCache
  providerCalled : Bool
deriving DecidableEq, Repr

/-- Embeds `SpatialIntelligence.geocode_location` (lines 155-199): cache
first; then the landmark gazetteer (caching the hit under the full phrase);
then the provider with the ", Philadelphia, PA" qualifier, caching only a
successful result and returning `none` (without raising) on no-match,
timeout, service error, or any other error. -/
def geocode_location (provider : Geocoder) (cache : GeoCache)
    (location_text : String) : GeocodeResult :=
  match cacheLookup cache location_text with
  | some c => ⟨some c, cache, false⟩
  | none =>
    let location_lower := pyLower location_text
    match findLandmarkCoords phillyLandmarks location_lower with
    | some lm => ⟨some lm, cacheInsert cache location_text lm, false⟩
    | none =>
      match provider (location_text ++ ", Philadelphia, PA") with
      | .found lat lon =>
        ⟨some (lat, lon), cacheInsert cache location_text (lat, lon), true⟩
      | .notFound => ⟨none, cache, true⟩
      | .timedOut => ⟨none, cache, true⟩
      | .serviceError => ⟨none, cache, true⟩
      | .otherError => ⟨none, cache, true⟩

/-- C5 counterexample: a failed geocode is *not* cached.  With a provider
that never matches and an empty cache, the phrase "zzz" (no landmark)
triggers a provider call, leaves the cache unchanged, and a second call
with the same phrase calls the provider again — refuting "the outcome for
that phrase — success or failure — is cached ... so the provider is not
called again for the same phrase". -/
theorem geocode_location_failure_not_cached :
    (geocode_location (fun _ => GeoOutcome.notFound) [] "zzz").coords =
      none ∧
    (geocode_location (fun _ => GeoOutcome.notFound) [] "zzz").cache = [] ∧
    (geocode_location (fun _ => GeoOutcome.notFound) [] "zzz").providerCalled
      = true ∧
    (geocode_location (fun _ => GeoOutcome.notFound)
      (geocode_location (fun _ => GeoOutcome.notFound) [] "zzz").cache
      "zzz").providerCalled = true := by
  refine ⟨?_, ?_, ?_, ?_⟩ <;> rfl

/-- C5 (amended): `geocode_location` consults the cache, then the landmark
gazetteer, then the provider (with the fixed ", Philadelphia, PA"
qualifier); it returns `none` and never raises on provider error or
no-match; a *successful* outcome is cached so the provider is not called
again for that phrase — but a failed outcome is not cached. -/
theorem geocode_location_behaviour (provider : Geocoder) (cache : GeoCache)
    (p : String) :
    (∀ c, cacheLookup cache p = some c →
      geocode_location provider cache p = ⟨some c, cache, false⟩) ∧
    (cacheLookup cache p = none →
      ∀ lm, findLandmarkCoords phillyLandmarks (pyLower p) = some lm →
        geocode_location provider cache p =
          ⟨some lm, cacheInsert cache p lm, false⟩) ∧
    (cacheLookup cache p = none →
      findLandmarkCoords phillyLandmarks (pyLower p) = none →
      (geocode_location provider cache p).providerCalled = true ∧
      (∀ lat lon, provider (p ++ ", Philadelphia, PA") =
          GeoOutcome.found lat lon →
        geocode_location provider cache p =
          ⟨some (lat, lon), cacheInsert cache p (lat, lon), true⟩ ∧
        geocode_location provider (cacheInsert cache p (lat, lon)) p =
          ⟨some (lat, lon), cacheInsert cache p (lat, lon), false⟩) ∧
      ((provider (p ++ ", Philadelphia, PA") = GeoOutcome.notFound ∨
        provider (p ++ ", Philadelphia, PA") = GeoOutcome.timedOut ∨
        provider (p ++ ", Philadelphia, PA") = GeoOutcome.serviceError ∨
        provider (p ++ ", Philadelphia, PA") = GeoOutcome.otherError) →
        geocode_location provider cache p = ⟨none, cache, true⟩)) := by
  refine ⟨?_, ?_, ?_⟩
  · intro c hc
    simp only [geocode_location, hc]
  · intro hc lm hlm
    simp only [geocode_location, hc, hlm]
  · intro hc hlm
    refine ⟨?_, ?_, ?_⟩
    · simp only [geocode_location, hc, hlm]
      cases hp : provider (p ++ ", Philadelphia, PA") <;> rfl
    · intro lat lon hp
      constructor
      · simp only [geocode_location, hc, hlm, hp]
      · have hck : cacheLookup (cacheInsert cache p (lat, lon)) p =
            some (lat, lon) := by
          simp [cacheInsert, cacheLookup]
        simp only [geocode_location, hck]
    · intro hp
      rcases hp with h | h | h | h <;>
        simp only [geocode_location, hc, hlm, h]

/-- C5 witness: with an empty cache, the phrase "zzz" and a provider that
times out, geocoding returns `none` with the cache unchanged. -/
theorem geocode_location_behaviour_witness :
    geocode_location (fun _ => GeoOutcome.timedOut) [] "zzz" =
      ⟨none, [], true⟩ :=
  ((geocode_location_behaviour (fun _ => GeoOutcome.timedOut) [] "zzz").2.2
    rfl rfl).2.2 (Or.inr (Or.inl rfl))

/-! ## C10: landmark phrases resolve from the gazetteer -/

/-- Caches reachable in a session: the cache starts empty and is only ever
updated by `geocode_location` itself (with arbitrary providers and
phrases). -/
inductive ReachableCache : GeoCache → Prop
  | init : ReachableCache []
  | step (provider : Geocoder) (p : String) {cache : GeoCache} :
      ReachableCache cache →
      ReachableCache (geocode_location provider cache p).cache

/-- In every reachable cache, the entry stored under a phrase whose
lowercase form contains a gazetteer landmark is that landmark's
coordinates. -/
theorem reachableCache_landmark_consistent {cache : GeoCache}
    (h : ReachableCache cache) :
    ∀ q c, cacheLookup cache q = some c →
      ∀ lm, findLandmarkCoords phillyLandmarks (pyLower q) = some lm →
        c = lm := by
  induction h with
  | init => intro q c hq; simp [cacheLookup] at hq
  | step provider p hreach ih =>
    intro q c hq lm hlm
    unfold geocode_location at hq
    rename_i cache'
    cases hcl : cacheLookup cache' p with
    | some c0 =>
      rw [hcl] at hq
      exact ih q c hq lm hlm
    | none =>
      rw [hcl] at hq
      dsimp only at hq
      cases hfl : findLandmarkCoords phillyLandmarks (pyLower p) with
      | some lm0 =>
        rw [hfl] at hq
        dsimp only [cacheInsert] at hq
        unfold cacheLookup at hq
        by_cases hpq : p = q
        · rw [if_pos hpq] at hq
          subst hpq
          rw [hfl] at hlm
          rw [Option.some_inj] at hq hlm
          rw [← hq, ← hlm]
        · rw [if_neg hpq] at hq
          exact ih q c hq lm hlm
      | none =>
        rw [hfl] at hq
        cases hp : provider (p ++ ", Philadelphia, PA") with
        | found lat lon =>
          rw [hp] at hq
          dsimp only [cacheInsert] at hq
          unfold cacheLookup at hq
          by_cases hpq : p = q
          · rw [if_pos hpq] at hq
            subst hpq
            rw [hfl] at hlm
            exact absurd hlm (by simp)
          · rw [if_neg hpq] at hq
            exact ih q c hq lm hlm
        | notFound => rw [hp] at hq; exact ih q c hq lm hlm
        | timedOut => rw [hp] at hq; exact ih q c hq lm hlm
        | serviceError => rw [hp] at hq; exact ih q c hq lm hlm
        | otherError => rw [hp] at hq; exact ih q c hq lm hlm

/-- C10: in any session state, a location phrase whose lowercase form
contains a gazetteer landmark name resolves to the coordinates of the first
matching landmark in table order, without any call to the external
provider, and the phrase-to-coordinates mapping is in the session cache
afterwards. -/
theorem geocode_location_landmark {cache : GeoCache}
    (hreach : ReachableCache cache) (provider : Geocoder) (p : String)
    (lm : ℚ × ℚ)
    (hlm : findLandmarkCoords phillyLandmarks (pyLower p) = some lm) :
    (geocode_location provider cache p).coords = some lm ∧
    (geocode_location provider cache p).providerCalled = false ∧
    cacheLookup (geocode_location provider cache p).cache p = some lm := by
  cases hcl : cacheLookup cache p with
  | some c =>
    have hc : c = lm :=
      reachableCache_landmark_consistent hreach p c hcl lm hlm
    subst hc
    simp [geocode_location, hcl]
  | none =>
    simp only [geocode_location, hcl, hlm]
    refine ⟨trivial, trivial, ?_⟩
    simp [cacheInsert, cacheLookup]

/-- C10 witness: in a fresh session, "near city hall" resolves to City
Hall's gazetteer coordinates without a provider call and is cached. -/
theorem geocode_location_landmark_witness :
    (geocode_location (fun _ => GeoOutcome.otherError) [] "near City Hall").coords =
      some (39952335/1000000, -75163789/1000000) ∧
    (geocode_location (fun _ => GeoOutcome.otherError) []
      "near City Hall").providerCalled = false ∧
    cacheLookup (geocode_location (fun _ => GeoOutcome.otherError) []
      "near City Hall").cache "near City Hall" =
        some (39952335/1000000, -75163789/1000000) :=
  geocode_location_landmark ReachableCache.init
    (fun _ => GeoOutcome.otherError) "near City Hall"
    (39952335/1000000, -75163789/1000000) (by rfl)

/-! ## Distance threshold (spatial_intelligence.py lines 400-430)

`get_distance_threshold` first searches the lowercased query for the
pattern `(\d+(?:\.\d+)?)\s*(miles?|mi|km|blocks?)` (leftmost match, digits
greedy, the optional fraction greedy with backtracking, alternation in the
written order), converts the captured value to miles, otherwise walks
`Config.PROXIMITY_THRESHOLDS` in dict order returning the first term
contained in the query, otherwise returns the configured default. -/

inductive DistUnit
  | miles | mile | mi | km | blocks | block
deriving DecidableEq, Repr

/-- The alternation `miles?|mi|km|blocks?` tried at the head of `s`, in the
regex's order; returns the matched unit. -/
def unitAt (s : List Char) : Option DistUnit :=
  if chPrefix "miles".data s then some .miles
  else if chPrefix "mile".data s then some .mile
  else if chPrefix "mi".data s then some .mi
  else if chPrefix "km".data s then some .km
  else if chPrefix "blocks".data s then some .blocks
  else if chPrefix "block".data s then some .block
  else none

/-- `\s*` (greedy) followed by the unit alternation. -/
def wsUnit (s : List Char) : Option DistUnit :=
  unitAt (s.dropWhile pyIsSpace)

/-- Numeric value of a digit list. -/
def digitsVal (ds : List Char) : Nat :=
  ds.foldl (fun n c => 10 * n + (c.toNat - 48)) 0

/-- Try to match `(\d+(?:\.\d+)?)\s*(unit)` at the head of `s`: greedy
digits, then the greedy optional fraction (falling back to no fraction when
the rest does not continue with `\s*unit`). -/
def matchNumberUnitAt (s : List Char) : Option (ℚ × DistUnit) :=
  let ds := s.takeWhile Char.isDigit
  let rest1 := s.dropWhile Char.isDigit
  if ds.isEmpty then none
  else
    let intVal : ℚ := digitsVal ds
    let withFrac : Option (ℚ × DistUnit) :=
      match rest1 with
      | '.' :: r2 =>
        let fs := r2.takeWhile Char.isDigit
        let rest2 := r2.dropWhile Char.isDigit
        if fs.isEmpty then none
        else
          match wsUnit rest2 with
          | some u =>
            some (intVal + (digitsVal fs : ℚ) / ((10 : ℚ) ^ fs.length), u)
          | none => none
      | _ => none
    match withFrac with
    | some r => some r
    | none =>
      match wsUnit rest1 with
      | some u => some (intVal, u)
      | none => none

/-- `re.search`: leftmost position whose head matches. -/
def scanDistance : List Char → Option (ℚ × DistUnit)
  | [] => none
  | c :: rest =>
    match matchNumberUnitAt (c :: rest) with
    | some r => some r
    | none => scanDistance rest

/-- `Config.PROXIMITY_THRESHOLDS` (config.py lines 43-51), in dict order. -/
def PROXIMITY_THRESHOLDS : List (String × ℚ) :=
  [("nearby", 8/10), ("close", 8/10), ("walking distance", 8/10),
   ("driving distance", 3), ("blocks", 1), ("vicinity", 1), ("area", 2)]

/-- Lines 425-427: the first table term contained in the query. -/
def firstProximity : List (String × ℚ) → String → Option ℚ
  | [], _ => none
  | (term, thr) :: rest, ql =>
    if pyIn term ql then some thr else firstProximity rest ql

/-- Conversion of lines 416-422: `'km' in unit` multiplies by 0.621371,
else `'block' in unit` multiplies by 0.1, else the value is returned
unchanged (`miles`, `mile` and `mi` are the remaining alternatives). -/
def convertToMiles (v : ℚ) : DistUnit → ℚ
  | .km => v * (621371/1000000)
  | .blocks => v * (1/10)
  | .block => v * (1/10)
  | _ => v

/-- Embeds `SpatialIntelligence.get_distance_threshold` (lines 400-430). -/
def get_distance_threshold (query : String) : ℚ :=
  let ql := pyLower query
  match scanDistance ql.data with
  | some (v, u) => convertToMiles v u
  | none =>
    match firstProximity PROXIMITY_THRESHOLDS ql with
    | some thr => thr
    | none => Config.DEFAULT_DISTANCE_THRESHOLD

/-- C9: the distance threshold is computed in this order — an explicit
number with a distance unit wins and is converted to miles (km × 0.621371,
blocks × 0.1, miles unchanged); otherwise the first matching entry of the
static keyword table ('nearby' → 0.8, 'driving distance' → 3.0, ...);
otherwise the configured default of 0.8 miles — with the concrete examples
evaluated. -/
theorem get_distance_threshold_spec :
    (∀ q v u, scanDistance (pyLower q).data = some (v, u) →
      get_distance_threshold q = convertToMiles v u ∧
      (u = .km → get_distance_threshold q = v * (621371/1000000)) ∧
      (u = .blocks ∨ u = .block →
        get_distance_threshold q = v * (1/10)) ∧
      (u = .miles ∨ u = .mile ∨ u = .mi →
        get_distance_threshold q = v)) ∧
    (∀ q, scanDistance (pyLower q).data = none →
      (∀ t, firstProximity PROXIMITY_THRESHOLDS (pyLower q) = some t →
        get_distance_threshold q = t) ∧
      (firstProximity PROXIMITY_THRESHOLDS (pyLower q) = none →
        get_distance_threshold q = Config.DEFAULT_DISTANCE_THRESHOLD)) ∧
    get_distance_threshold "nearby" = 8/10 ∧
    get_distance_threshold "driving distance" = 3 ∧
    get_distance_threshold "within 2 km" = 2 * (621371/1000000) ∧
    get_distance_threshold "3 blocks away" = 3 * (1/10) ∧
    get_distance_threshold "within 2 miles" = 2 ∧
    get_distance_threshold "" = 8/10 := by
  refine ⟨?_, ?_, ?_, ?_, ?_, ?_, ?_, ?_⟩
  · intro q v u hscan
    have hmain : get_distance_threshold q = convertToMiles v u := by
      unfold get_distance_threshold
      dsimp only
      rw [hscan]
    refine ⟨hmain, ?_, ?_, ?_⟩
    · intro hu; rw [hmain, hu]; rfl
    · rintro (hu | hu) <;> rw [hmain, hu] <;> rfl
    · rintro (hu | hu | hu) <;> rw [hmain, hu] <;> rfl
  · intro q hscan
    constructor
    · intro t ht
      unfold get_distance_threshold
      dsimp only
      rw [hscan, ht]
    · intro hnone
      unfold get_distance_threshold
      dsimp only
      rw [hscan, hnone]
  · rfl
  · rfl
  · rfl
  · rfl
  · rfl
  · rfl

/-- C9 witness: the explicit-distance branch at "5 mi" and the default
branch at "hello", instantiating the quantified parts of the theorem. -/
theorem get_distance_threshold_spec_witness :
    get_distance_threshold "5 mi" = convertToMiles 5 DistUnit.mi ∧
    get_distance_threshold "hello" = Config.DEFAULT_DISTANCE_THRESHOLD :=
  ⟨(get_distance_threshold_spec.1 "5 mi" 5 DistUnit.mi rfl).1,
    (get_distance_threshold_spec.2.1 "hello" rfl).2 rfl⟩

end DreamKG

namespace DreamKG

/-! ## Keyword normalization: word-boundary regex model -/

/-- Python's `\w` class (ASCII part): the word characters of `re.sub`'s
`\b` boundaries. -/
def wordChar (c : Char) : Bool := c.isAlpha || c.isDigit || c == '_'

/-- Lowercase a character list (Python `str.lower()` / `re.IGNORECASE`). -/
def lcl (s : List Char) : List Char := s.map Char.toLower

/-- `p` (stored lowercase) matches the head of `s` case-insensitively. -/
def ciPre : List Char → List Char → Bool
  | [], _ => true
  | _ :: _, [] => false
  | a :: p, c :: s => (Char.toLower c == a) && ciPre p s

/-- The trailing `\b`: the next character is a non-word character or the
end of the string. -/
def endB : List Char → Bool
  | [] => true
  | c :: _ => !wordChar c

/-- `k` matches (case-insensitively) at the head of `s` with a trailing
word boundary. -/
def matchRest (k s : List Char) : Bool := ciPre k s && endB (s.drop k.length)

/-- `\bk\b` matches at the head of `s`, where `pw` records whether the
character immediately before `s` is a word character. -/
def wwFront (k : List Char) (pw : Bool) (s : List Char) : Bool :=
  !pw && matchRest k s

/-- `\bk\b` matches somewhere in `s` (given the incoming word/non-word
flag `pw`). -/
def hasWW (k : List Char) : Bool → List Char → Bool
  | _, [] => false
  | pw, c :: s => wwFront k pw (c :: s) || hasWW k (wordChar c) s

/-- `re.sub(r'\b' + re.escape(k) + r'\b', v, ·, re.IGNORECASE)`:
replace every non-overlapping whole-word occurrence of `k`, scanning left
to right; after a match the scan resumes after the matched region (whose
last character's word-ness equals that of `k`'s last character). -/
def rww (k v : List Char) : Bool → List Char → List Char
  | _, [] => []
  | pw, c :: s =>
    if k ≠ [] ∧ wwFront k pw (c :: s) = true then
      v ++ rww k v (wordChar (k.getLastD ' ')) ((c :: s).drop k.length)
    else
      c :: rww k v (wordChar c) s
termination_by _ s => s.length
decreasing_by
  · rename_i hk
    simp only [List.length_drop, List.length_cons]
    have : k.length ≠ 0 := fun h => hk.1 (List.eq_nil_of_length_eq_zero h)
    omega
  · simp only [List.length_cons]
    omega

/-- Plain substring test (Python `in` between already-lowercased
strings). -/
def isSub (p : List Char) : List Char → Bool
  | [] => p.isEmpty
  | c :: s => chPrefix p (c :: s) || isSub p s

theorem toLower_cases (c : Char) : Char.toLower c = c ∨
    (65 ≤ c.toNat ∧ c.toNat ≤ 90 ∧ (Char.toLower c).toNat = c.toNat + 32) := by
  unfold Char.toLower
  dsimp only
  split
  · rename_i h
    right
    refine ⟨h.1, h.2, ?_⟩
    have hv : (c.toNat + 32).isValidChar := by
      left
      omega
    show (Char.ofNat (c.toNat + 32)).toNat = c.toNat + 32
    rw [Char.ofNat, dif_pos hv]
    rfl
  · left; rfl

theorem uint32_le_iff (a b : UInt32) : a ≤ b ↔ a.toNat ≤ b.toNat := by
  rw [UInt32.le_def, BitVec.le_def]
  exact Iff.rfl

theorem char_eq_iff_toNat (a b : Char) : a = b ↔ a.toNat = b.toNat := by
  constructor
  · intro h; rw [h]
  · intro h
    exact Char.ext (UInt32.toNat.inj h)

theorem wordChar_iff (c : Char) : wordChar c = true ↔
    ((65 ≤ c.toNat ∧ c.toNat ≤ 90) ∨ (97 ≤ c.toNat ∧ c.toNat ≤ 122) ∨
      (48 ≤ c.toNat ∧ c.toNat ≤ 57) ∨ c.toNat = 95) := by
  have h65 : (65 : UInt32).toNat = 65 := rfl
  have h90 : (90 : UInt32).toNat = 90 := rfl
  have h97 : (97 : UInt32).toNat = 97 := rfl
  have h122 : (122 : UInt32).toNat = 122 := rfl
  have h48 : (48 : UInt32).toNat = 48 := rfl
  have h57 : (57 : UInt32).toNat = 57 := rfl
  unfold wordChar Char.isAlpha Char.isUpper Char.isLower Char.isDigit
  simp only [Bool.or_eq_true, Bool.and_eq_true, decide_eq_true_eq,
    beq_iff_eq, Char.le_def, uint32_le_iff, h65, h90, h97, h122, h48, h57,
    char_eq_iff_toNat]
  have h95 : ('_' : Char).toNat = 95 := rfl
  rw [h95]
  show _ ↔ _
  constructor
  · intro h
    tauto
  · intro h
    tauto

/-- ASCII lowercasing preserves word-character-ness. -/
theorem wordChar_toLower (c : Char) :
    wordChar (Char.toLower c) = wordChar c := by
  rcases toLower_cases c with h | ⟨h1, h2, h3⟩
  · rw [h]
  · have hl : wordChar (Char.toLower c) = true := by
      rw [wordChar_iff, h3]
      right; left
      omega
    have hr : wordChar c = true := by
      rw [wordChar_iff]
      left
      exact ⟨h1, h2⟩
    rw [hl, hr]

/- ## Basic facts about ciPre, endB, hasWW -/

theorem ciPre_length {p s : List Char} (h : ciPre p s = true) :
    p.length ≤ s.length := by
  induction p generalizing s with
  | nil => simp
  | cons a p ih =>
    cases s with
    | nil => simp [ciPre] at h
    | cons c s =>
      simp only [ciPre, Bool.and_eq_true] at h
      simp only [List.length_cons]
      exact Nat.succ_le_succ (ih h.2)

theorem ciPre_append_of_le {p u : List Char} (R : List Char)
    (h : p.length ≤ u.length) : ciPre p (u ++ R) = ciPre p u := by
  induction p generalizing u with
  | nil => simp [ciPre]
  | cons a p ih =>
    cases u with
    | nil => simp at h
    | cons c u =>
      simp only [List.cons_append, ciPre, List.append_eq]
      rw [ih (by simpa using h)]

theorem ciPre_append_split {p u R : List Char}
    (h : ciPre p (u ++ R) = true) (hlen : u.length ≤ p.length) :
    ciPre (p.take u.length) u = true ∧
      ciPre (p.drop u.length) R = true := by
  induction u generalizing p with
  | nil => exact ⟨rfl, by simpa using h⟩
  | cons c u ih =>
    cases p with
    | nil => simp at hlen
    | cons a p =>
      simp only [List.cons_append, ciPre, Bool.and_eq_true] at h
      have := ih h.2 (by simpa using hlen)
      simp only [List.length_cons, List.take_succ_cons, ciPre,
        List.drop_succ_cons, Bool.and_eq_true]
      exact ⟨⟨h.1, this.1⟩, this.2⟩

theorem ciPre_append_parts {A B p rest : List Char}
    (hA : ciPre A p = true) (hlen : A.length = p.length)
    (hB : ciPre B rest = true) :
    ciPre (A ++ B) (p ++ rest) = true := by
  induction A generalizing p with
  | nil =>
    have : p = [] := List.eq_nil_of_length_eq_zero hlen.symm
    subst this
    simpa using hB
  | cons a A ih =>
    cases p with
    | nil => simp at hlen
    | cons c p =>
      simp only [ciPre, Bool.and_eq_true] at hA
      simp only [List.cons_append, ciPre, Bool.and_eq_true]
      exact ⟨hA.1, ih hA.2 (by simpa using hlen)⟩

theorem ciPre_lcl_self (p : List Char) : ciPre (lcl p) p = true := by
  induction p with
  | nil => rfl
  | cons c p ih =>
    simp only [lcl, List.map_cons, ciPre, Bool.and_eq_true]
    exact ⟨by simp, by simpa [lcl] using ih⟩

theorem lcl_of_ciPre {p s : List Char} (h : ciPre p s = true)
    (hlen : p.length = s.length) : lcl s = p := by
  induction p generalizing s with
  | nil =>
    have : s = [] := List.eq_nil_of_length_eq_zero hlen.symm
    subst this; rfl
  | cons a p ih =>
    cases s with
    | nil => simp at hlen
    | cons c s =>
      simp only [ciPre, Bool.and_eq_true, beq_iff_eq] at h
      simp only [lcl, List.map_cons]
      rw [h.1]
      congr 1
      exact ih h.2 (by simpa using hlen)

theorem endB_append (u R : List Char) :
    endB (u ++ R) = if u.isEmpty then endB R else endB u := by
  cases u <;> simp [endB]

theorem hasWW_cons (k : List Char) (pw : Bool) (c : Char) (s : List Char) :
    hasWW k pw (c :: s) =
      (wwFront k pw (c :: s) || hasWW k (wordChar c) s) := rfl

theorem hasWW_of_tail {k : List Char} {pw : Bool} {c : Char}
    {s : List Char} (h : hasWW k (wordChar c) s = true) :
    hasWW k pw (c :: s) = true := by
  rw [hasWW_cons, h, Bool.or_true]

/-- Transport an occurrence across a prepended block whose last character
is a word character and which pattern-matches `m` so that the incoming
flag after `m` is `true`. -/
theorem hasWW_append_left {k : List Char} {t : List Char}
    (h : hasWW k true t = true) :
    ∀ (m : List Char) (pw : Bool), m ≠ [] →
      wordChar (m.getLastD ' ') = true → hasWW k pw (m ++ t) = true := by
  intro m
  induction m with
  | nil => intro pw hne; exact absurd rfl hne
  | cons a m ih =>
    intro pw _ hlast
    cases m with
    | nil =>
      simp only [List.getLastD_cons, List.getLastD_nil] at hlast
      simp only [List.cons_append, List.nil_append]
      exact hasWW_of_tail (by rw [hlast]; exact h)
    | cons b m' =>
      have hlast' : wordChar ((b :: m').getLastD ' ') = true := by
        simpa [List.getLastD_cons] using hlast
      simp only [List.cons_append]
      exact hasWW_of_tail (ih (wordChar a) (by simp) hlast')

end DreamKG

namespace DreamKG

theorem rww_nil (k v : List Char) (pw : Bool) : rww k v pw [] = [] := by
  simp [rww]

theorem rww_cons_match {k : List Char} {pw : Bool} {c : Char}
    {s : List Char} (v : List Char) (hk : k ≠ [])
    (hw : wwFront k pw (c :: s) = true) :
    rww k v pw (c :: s) =
      v ++ rww k v (wordChar (k.getLastD ' ')) ((c :: s).drop k.length) := by
  rw [rww]
  rw [if_pos ⟨hk, hw⟩]

theorem rww_cons_nomatch {k : List Char} {pw : Bool} {c : Char}
    {s : List Char} (v : List Char)
    (h : ¬(k ≠ [] ∧ wwFront k pw (c :: s) = true)) :
    rww k v pw (c :: s) = c :: rww k v (wordChar c) s := by
  rw [rww]
  rw [if_neg h]

/-- A substitution with no whole-word occurrence is the identity. -/
theorem rww_eq_self {k v : List Char} :
    ∀ {pw : Bool} {s : List Char}, hasWW k pw s = false →
      rww k v pw s = s := by
  intro pw s
  induction s generalizing pw with
  | nil => intro _; exact rww_nil k v pw
  | cons c s ih =>
    intro h
    rw [hasWW_cons, Bool.or_eq_false_iff] at h
    rw [rww_cons_nomatch v (by
      rintro ⟨_, hw⟩
      rw [h.1] at hw
      exact Bool.false_ne_true hw)]
    rw [ih h.2]

/-- With an incoming word flag the head character survives, so the
boundary class of the output equals that of the input. -/
theorem endB_rww_true (k v : List Char) (s : List Char) :
    endB (rww k v true s) = endB s := by
  cases s with
  | nil => rw [rww_nil]
  | cons c s =>
    rw [rww_cons_nomatch v (by
      rintro ⟨_, hw⟩
      simp [wwFront] at hw)]
    rfl

theorem chPrefix_of_ciPre {p s : List Char} (h : ciPre p s = true) :
    chPrefix p (lcl s) = true := by
  induction p generalizing s with
  | nil => rfl
  | cons a p ih =>
    cases s with
    | nil => simp [ciPre] at h
    | cons c s =>
      simp only [ciPre, Bool.and_eq_true] at h
      simp only [lcl, List.map_cons, chPrefix, Bool.and_eq_true]
      refine ⟨?_, by simpa [lcl] using ih h.2⟩
      have := beq_iff_eq.1 h.1
      exact beq_iff_eq.2 this.symm

/-- An occurrence implies the key is a substring of the lowercased
string: this connects whole-word matching to the dict trigger
`original in query_lower`. -/
theorem isSub_of_hasWW {k : List Char} :
    ∀ {pw : Bool} {s : List Char}, hasWW k pw s = true →
      isSub k (lcl s) = true := by
  intro pw s
  induction s generalizing pw with
  | nil => intro h; simp [hasWW] at h
  | cons c s ih =>
    intro h
    rw [hasWW_cons, Bool.or_eq_true] at h
    show (chPrefix k (lcl (c :: s)) || isSub k (lcl s)) = true
    rcases h with h | h
    · rw [chPrefix_of_ciPre (by
        simp only [wwFront, matchRest, Bool.and_eq_true] at h
        exact h.2.1)]
      rfl
    · rw [ih h]
      simp

theorem chPrefix_mono {p q s : List Char} (hpq : p <+: q)
    (h : chPrefix q s = true) : chPrefix p s = true := by
  induction p generalizing q s with
  | nil => rfl
  | cons a p ih =>
    obtain ⟨t, ht⟩ := hpq
    cases s with
    | nil =>
      subst ht
      simp [chPrefix] at h
    | cons c s =>
      subst ht
      simp only [List.cons_append, chPrefix, Bool.and_eq_true] at h
      simp only [chPrefix, Bool.and_eq_true]
      exact ⟨h.1, ih ⟨t, rfl⟩ h.2⟩

theorem isSub_mono {p q : List Char} (hpq : p <+: q) :
    ∀ {s : List Char}, isSub q s = true → isSub p s = true := by
  intro s
  induction s with
  | nil =>
    intro h
    simp only [isSub, List.isEmpty_iff] at h ⊢
    subst h
    exact List.prefix_nil.1 hpq
  | cons c s ih =>
    intro h
    simp only [isSub, Bool.or_eq_true] at h ⊢
    rcases h with h | h
    · exact Or.inl (chPrefix_mono hpq h)
    · exact Or.inr (ih h)

/-- The matched portion of a case-insensitive prefix lowercases exactly to
the pattern. -/
theorem lcl_take_of_ciPre {k s : List Char} (h : ciPre k s = true) :
    lcl (s.take k.length) = k := by
  have hlen := ciPre_length h
  have hsplit : s = s.take k.length ++ s.drop k.length :=
    (List.take_append_drop _ s).symm
  have h2 : ciPre k (s.take k.length ++ s.drop k.length) = true := by
    rw [← hsplit]; exact h
  rw [ciPre_append_of_le _ (by simp [Nat.min_eq_left hlen])] at h2
  exact lcl_of_ciPre h2 (by simp [Nat.min_eq_left hlen])

theorem getLastD_wordChar_of_lcl {m k : List Char} (hm : m ≠ [])
    (h : lcl m = k) :
    wordChar (m.getLastD ' ') = wordChar (k.getLastD ' ') := by
  obtain ⟨c, hc⟩ := List.getLast?_isSome.2 hm |> Option.isSome_iff_exists.1
  have hk : k.getLast? = some (Char.toLower c) := by
    rw [← h, lcl, List.getLast?_map, hc]
    rfl
  rw [List.getLastD_eq_getLast?, List.getLastD_eq_getLast?, hc, hk]
  simp [wordChar_toLower]

end DreamKG


namespace DreamKG

theorem lcl_suffix {u w : List Char} (h : u <:+ w) (hw : lcl w = w) :
    lcl u = u := by
  obtain ⟨t, ht⟩ := h
  subst ht
  rw [lcl, List.map_append] at hw
  exact List.append_inj_right hw (by simp [lcl])

theorem getLastD_suffix {u w : List Char} (h : u <:+ w) (hu : u ≠ []) :
    u.getLastD ' ' = w.getLastD ' ' := by
  obtain ⟨t, ht⟩ := h
  subst ht
  rw [List.getLastD_eq_getLast?, List.getLastD_eq_getLast?,
    List.getLast?_append_of_ne_nil _ hu]

/-- In `W1 ++ sep :: W2` with `W1`, `W2` word-only and `sep` a non-word
character, the only way to split off a non-word character is at `sep`. -/
theorem split_at_nonword :
    ∀ (W1 : List Char) (sep : Char) (W2 P T : List Char) (d : Char),
      (∀ c ∈ W1, wordChar c = true) → wordChar sep = false →
      (∀ c ∈ W2, wordChar c = true) →
      W1 ++ sep :: W2 = P ++ d :: T → wordChar d = false →
      P = W1 ∧ d = sep ∧ T = W2 := by
  intro W1
  induction W1 with
  | nil =>
    intro sep W2 P T d _ hsep hW2 heq hd
    cases P with
    | nil =>
      simp only [List.nil_append] at heq
      injection heq with h1 h2
      exact ⟨rfl, h1.symm, h2.symm⟩
    | cons p₀ P' =>
      simp only [List.nil_append, List.cons_append] at heq
      injection heq with h1 h2
      exfalso
      have hdmem : d ∈ W2 := by
        rw [h2]
        exact List.mem_append_right _ (List.mem_cons_self _ _)
      rw [hW2 d hdmem] at hd
      simp at hd
  | cons w W1' ih =>
    intro sep W2 P T d hW1 hsep hW2 heq hd
    cases P with
    | nil =>
      simp only [List.cons_append, List.nil_append] at heq
      injection heq with h1 h2
      exfalso
      rw [← h1, hW1 w (List.mem_cons_self _ _)] at hd
      simp at hd
    | cons p₀ P' =>
      simp only [List.cons_append] at heq
      injection heq with h1 h2
      obtain ⟨hp, hds, ht⟩ := ih sep W2 P' T d
        (fun c hc => hW1 c (List.mem_cons_of_mem _ hc)) hsep hW2 h2 hd
      exact ⟨by rw [← h1, hp], hds, ht⟩

/-- The shape of a two-word normalization key: word characters, a single
non-word separator, word characters. -/
structure TWKey where
  W1 : List Char
  sep : Char
  W2 : List Char
  W1ne : W1 ≠ []
  W1w : ∀ c ∈ W1, wordChar c = true
  W2ne : W2 ≠ []
  W2w : ∀ c ∈ W2, wordChar c = true
  sepw : wordChar sep = false

def TWKey.key (T : TWKey) : List Char := T.W1 ++ T.sep :: T.W2

/-- Well-formedness of a replacement value: non-empty, lowercase, ending
in a word character. -/
structure GoodVal (v : List Char) : Prop where
  ne : v ≠ []
  lc : lcl v = v
  lastw : wordChar (v.getLastD ' ') = true

/-- A whole-word occurrence of the two-word key cannot start inside a
suffix `u` of `v` and continue into the following block `R` (whose head
sits at a word boundary). -/
theorem no_straddle2 (T : TWKey) {v : List Char} (hvlc : lcl v = v)
    (hsfx : ∀ u, u <:+ v → u = T.W1 → False) {u R : List Char}
    (hu : u <:+ v) (hR : endB R = true)
    (hci : ciPre T.key (u ++ R) = true)
    (hlt : u.length < T.key.length) : False := by
  have hsplit := ciPre_append_split hci (le_of_lt hlt)
  have hulc : lcl u = u := lcl_suffix hu hvlc
  have htake : T.key.take u.length = u := by
    have := lcl_of_ciPre hsplit.1
      (by rw [List.length_take, Nat.min_eq_left (le_of_lt hlt)])
    rw [hulc] at this
    exact this.symm
  have hKdlen : (T.key.drop u.length).length = T.key.length - u.length := by
    rw [List.length_drop]
  cases hKdc : T.key.drop u.length with
  | nil =>
    rw [hKdc] at hKdlen
    simp at hKdlen
    omega
  | cons d rest =>
    have hciR : ciPre (d :: rest) R = true := by
      rw [← hKdc]
      exact hsplit.2
    cases R with
    | nil => simp [ciPre] at hciR
    | cons r₀ R' =>
      simp only [ciPre, Bool.and_eq_true, beq_iff_eq] at hciR
      have hr₀ : wordChar r₀ = false := by
        simpa [endB] using hR
      have hdw : wordChar d = false := by
        rw [← hciR.1, wordChar_toLower]
        exact hr₀
      have hKsplit : T.W1 ++ T.sep :: T.W2 = u ++ d :: rest := by
        have h0 : T.key = T.key.take u.length ++ T.key.drop u.length :=
          (List.take_append_drop _ _).symm
        rw [htake, hKdc] at h0
        exact h0
      obtain ⟨hPW1, _, _⟩ :=
        split_at_nonword T.W1 T.sep T.W2 u rest d T.W1w T.sepw T.W2w
          hKsplit hdw
      exact hsfx u hu hPW1

/-- Splitting an occurrence across `u ++ R` (with `u` a suffix of `v` and
`R` starting at a word boundary): the occurrence lies wholly in `u` or
wholly in `R`. -/
theorem splitv2 (T : TWKey) {v : List Char} (hvlc : lcl v = v)
    (hvlast : wordChar (v.getLastD ' ') = true)
    (hsfx : ∀ u, u <:+ v → u = T.W1 → False) :
    ∀ (u : List Char) (pw : Bool) {R : List Char}, endB R = true →
      u <:+ v → (u = [] → pw = true) →
      hasWW T.key pw (u ++ R) = true →
      hasWW T.key pw u = true ∨ hasWW T.key true R = true := by
  intro u
  induction u with
  | nil =>
    intro pw R hR _ hpw h
    right
    rw [hpw rfl] at h
    simpa using h
  | cons c₀ u' ih =>
    intro pw R hR husfx _ h
    rw [List.cons_append, hasWW_cons, Bool.or_eq_true] at h
    rcases h with h | h
    · rw [wwFront, Bool.and_eq_true, matchRest, Bool.and_eq_true] at h
      have hnpw := h.1
      have hci := h.2.1
      have hend := h.2.2
      by_cases hlen : T.key.length ≤ (c₀ :: u').length
      · left
        rw [← List.cons_append] at hci hend
        have hciu : ciPre T.key (c₀ :: u') = true := by
          rw [ciPre_append_of_le R hlen] at hci
          exact hci
        have hendu : endB ((c₀ :: u').drop T.key.length) = true := by
          rw [List.drop_append_of_le_length hlen, endB_append] at hend
          split at hend
          · rename_i hemp
            rw [List.isEmpty_iff] at hemp
            rw [hemp, endB]
          · exact hend
        rw [hasWW_cons, Bool.or_eq_true]
        left
        rw [wwFront, Bool.and_eq_true, matchRest, Bool.and_eq_true]
        exact ⟨hnpw, hciu, hendu⟩
      · exfalso
        push_neg at hlen
        rw [← List.cons_append] at hci
        exact no_straddle2 T hvlc hsfx husfx hR hci hlen
    · have hu' : u' <:+ v := (List.suffix_cons c₀ u').trans husfx
      have hlast : u' = [] → wordChar c₀ = true := by
        intro hnil
        subst hnil
        have hgl : (([c₀] : List Char)).getLastD ' ' = v.getLastD ' ' :=
          getLastD_suffix husfx (by simp)
        simp only [List.getLastD_cons, List.getLastD_nil] at hgl
        rw [hgl]
        exact hvlast
      rcases ih (wordChar c₀) hR hu' hlast h with h | h
      · left
        exact hasWW_of_tail h
      · right
        exact h

end DreamKG


namespace DreamKG

theorem hasWW_of_wwFront {k : List Char} {pw : Bool} {s : List Char}
    (hs : s ≠ []) (h : wwFront k pw s = true) : hasWW k pw s = true := by
  cases s with
  | nil => exact absurd rfl hs
  | cons c s' =>
    rw [hasWW_cons, h]
    rfl

/-- A word-only pattern matching across `v ++ R` (with `R` at a word
boundary) in fact matches within `v`. -/
theorem ciPre_allword_block {W2 v R : List Char}
    (hW2w : ∀ c ∈ W2, wordChar c = true) (hR : endB R = true)
    (hci : ciPre W2 (v ++ R) = true) : ciPre W2 v = true := by
  by_cases hlen : W2.length ≤ v.length
  · rw [ciPre_append_of_le _ hlen] at hci
    exact hci
  · exfalso
    push_neg at hlen
    have hsplit := ciPre_append_split hci (le_of_lt hlen)
    cases hKdc : W2.drop v.length with
    | nil =>
      have := congrArg List.length hKdc
      simp only [List.length_drop, List.length_nil] at this
      omega
    | cons d rest =>
      have hciR : ciPre (d :: rest) R = true := by
        rw [← hKdc]
        exact hsplit.2
      cases R with
      | nil => simp [ciPre] at hciR
      | cons r₀ R' =>
        simp only [ciPre, Bool.and_eq_true, beq_iff_eq] at hciR
        have hr₀ : wordChar r₀ = false := by
          simpa [endB] using hR
        have hdw : wordChar d = false := by
          rw [← hciR.1, wordChar_toLower]
          exact hr₀
        have hdmem : d ∈ W2 := by
          have hmem0 : d ∈ W2.drop v.length := by
            rw [hKdc]
            exact List.mem_cons_self _ _
          exact List.mem_of_mem_drop hmem0
        rw [hW2w d hdmem] at hdw
        simp at hdw

/-- The scanning state while matching a suffix of the two-word key: at the
start, inside the first word, right after the separator, or inside the
second word. -/
def peelState (T : TWKey) (K'' : List Char) (pw : Bool) : Prop :=
  (K'' = T.key ∧ pw = false) ∨
  (∃ W1a W1b, T.W1 = W1a ++ W1b ∧ W1a ≠ [] ∧
    K'' = W1b ++ T.sep :: T.W2 ∧ pw = true) ∨
  (K'' = T.W2 ∧ pw = false) ∨
  (∃ W2a W2b, T.W2 = W2a ++ W2b ∧ W2a ≠ [] ∧ K'' = W2b ∧ pw = true)

/-- Peeling a front match of (a suffix of) the two-word key off the output
of one substitution: either the match transports back to the input, or the
key occurs inside the inserted value, or the scan crossed the separator
and the tail of the key was matched against an inserted value followed by
a residual match of the rule's own key. -/
theorem peel2 (T : TWKey) {k v : List Char}
    (hklast : wordChar (k.getLastD ' ') = true) (hgv : GoodVal v)
    (hsfx : ∀ u, u <:+ v → u = T.W1 → False) :
    ∀ (n : Nat) (s : List Char), s.length ≤ n →
      ∀ (K'' : List Char) (pw : Bool), peelState T K'' pw →
      matchRest K'' (rww k v pw s) = true →
      matchRest K'' s = true ∨ hasWW T.key false v = true ∨
        (ciPre T.W2 v = true ∧
          ∃ p rest, s = p ++ rest ∧ K'' = lcl p ++ T.W2 ∧
            matchRest k rest = true) := by
  intro n
  induction n with
  | zero =>
    intro s hs K'' pw _ hm
    have hnil : s = [] := List.eq_nil_of_length_eq_zero (Nat.le_zero.1 hs)
    subst hnil
    rw [rww_nil] at hm
    exact Or.inl hm
  | succ n ih =>
    intro s hs K'' pw hstate hm
    cases s with
    | nil =>
      rw [rww_nil] at hm
      exact Or.inl hm
    | cons c s' =>
      by_cases hcond : (k ≠ [] ∧ wwFront k pw (c :: s') = true)
      · -- the rule's key matches at the front of s
        rw [rww_cons_match v hcond.1 hcond.2, hklast] at hm
        have hpw : pw = false := by
          have h0 := hcond.2
          rw [wwFront, Bool.and_eq_true] at h0
          cases pw
          · rfl
          · simp at h0
        have hkR := hcond.2
        rw [wwFront, Bool.and_eq_true, matchRest, Bool.and_eq_true] at hkR
        have hRend : endB (rww k v true ((c :: s').drop k.length)) = true := by
          rw [endB_rww_true]
          exact hkR.2.2
        rcases hstate with ⟨hK, _⟩ | ⟨_, _, _, _, _, hpw'⟩ |
          ⟨hK, _⟩ | ⟨_, _, _, _, _, hpw'⟩
        · -- matching the whole key against v ++ R
          subst hK
          rw [matchRest, Bool.and_eq_true] at hm
          by_cases hlen : T.key.length ≤ v.length
          · right; left
            apply hasWW_of_wwFront hgv.ne
            rw [wwFront, matchRest]
            have hciv : ciPre T.key v = true := by
              rw [ciPre_append_of_le _ hlen] at hm
              exact hm.1
            have hendv : endB (v.drop T.key.length) = true := by
              have h0 := hm.2
              rw [List.drop_append_of_le_length hlen, endB_append] at h0
              split at h0
              · rename_i hemp
                rw [List.isEmpty_iff] at hemp
                rw [hemp, endB]
              · exact h0
            rw [hciv, hendv]
            rfl
          · exfalso
            push_neg at hlen
            exact no_straddle2 T hgv.lc hsfx (List.suffix_refl v) hRend
              hm.1 hlen
        · rw [hpw'] at hpw
          exact absurd hpw (by simp)
        · -- matching the second word against v ++ R: hand over to k
          subst hK
          right; right
          rw [matchRest, Bool.and_eq_true] at hm
          refine ⟨ciPre_allword_block T.W2w hRend hm.1, [], c :: s',
            rfl, by simp [lcl], ?_⟩
          rw [matchRest, Bool.and_eq_true]
          exact ⟨hkR.2.1, hkR.2.2⟩
        · rw [hpw'] at hpw
          exact absurd hpw (by simp)
      · -- no match at the front of s
        rw [rww_cons_nomatch v hcond] at hm
        cases K'' with
        | nil =>
          left
          rw [matchRest] at hm ⊢
          simpa [ciPre, endB] using hm
        | cons a t =>
          rw [matchRest, Bool.and_eq_true] at hm
          have hci := hm.1
          rw [ciPre, Bool.and_eq_true, beq_iff_eq] at hci
          have ha : Char.toLower c = a := hci.1
          have hwca : wordChar c = wordChar a := by
            rw [← ha, wordChar_toLower]
          have hend : endB ((rww k v (wordChar c) s').drop t.length)
              = true := by
            have h0 := hm.2
            rwa [List.length_cons, List.drop_succ_cons] at h0
          have hm' : matchRest t (rww k v (wordChar c) s') = true := by
            rw [matchRest, Bool.and_eq_true]
            exact ⟨hci.2, hend⟩
          -- advance the scanning state by the consumed character
          have hstate' : peelState T t (wordChar c) := by
            rcases hstate with ⟨hK, _⟩ | ⟨W1a, W1b, hW1split, _, hK, _⟩ |
              ⟨hK, _⟩ | ⟨W2a, W2b, hW2split, _, hK, _⟩
            · cases hW1c : T.W1 with
              | nil => exact absurd hW1c T.W1ne
              | cons w W1' =>
                simp only [TWKey.key, hW1c, List.cons_append] at hK
                injection hK with h1 h2
                right; left
                refine ⟨[w], W1', by rw [hW1c]; rfl, by simp, h2, ?_⟩
                rw [hwca, h1]
                exact T.W1w w (by rw [hW1c]; exact List.mem_cons_self _ _)
            · cases W1b with
              | nil =>
                simp only [List.nil_append] at hK
                injection hK with h1 h2
                right; right; left
                refine ⟨h2, ?_⟩
                rw [hwca, h1]
                exact T.sepw
              | cons b W1b' =>
                simp only [List.cons_append] at hK
                injection hK with h1 h2
                right; left
                refine ⟨W1a ++ [b], W1b',
                  by rw [hW1split, List.append_assoc]; rfl,
                  by simp, h2, ?_⟩
                rw [hwca, h1]
                exact T.W1w b (by
                  rw [hW1split]
                  exact List.mem_append_right _ (List.mem_cons_self _ _))
            · right; right; right
              refine ⟨[a], t, by rw [← hK]; rfl, by simp, rfl, ?_⟩
              rw [hwca]
              exact T.W2w a (by rw [← hK]; exact List.mem_cons_self _ _)
            · right; right; right
              refine ⟨W2a ++ [a], t,
                by rw [hW2split, ← hK, List.append_assoc]; rfl,
                by simp, rfl, ?_⟩
              rw [hwca]
              exact T.W2w a (by
                rw [hW2split, ← hK]
                exact List.mem_append_right _ (List.mem_cons_self _ _))
          have hs' : s'.length ≤ n := by
            simp only [List.length_cons] at hs
            omega
          rcases ih s' hs' t (wordChar c) hstate' hm' with h | h |
            ⟨hciw, p, rest, hsrest, hKt, hmk⟩
          · left
            rw [matchRest, Bool.and_eq_true] at h ⊢
            constructor
            · rw [ciPre, Bool.and_eq_true, beq_iff_eq]
              exact ⟨ha, h.1⟩
            · rw [List.length_cons, List.drop_succ_cons]
              exact h.2
          · right; left
            exact h
          · right; right
            refine ⟨hciw, c :: p, rest, by rw [hsrest, List.cons_append],
              ?_, hmk⟩
            simp only [lcl, List.map_cons, List.cons_append] at hKt ⊢
            rw [ha, hKt]

end DreamKG

namespace DreamKG

/-- Occurrence preservation through one substitution, two-word key: an
occurrence of the key in the output was already in the input, or lies in
the inserted value, or the input contained the first word, the separator
and then a whole-word match of the rule's key (whose value starts like the
key's second word). -/
theorem master2 (T : TWKey) {k v : List Char} (hkne : k ≠ [])
    (hklast : wordChar (k.getLastD ' ') = true) (hgv : GoodVal v)
    (hsfx : ∀ u, u <:+ v → u = T.W1 → False) :
    ∀ (n : Nat) (s : List Char), s.length ≤ n → ∀ (pw : Bool),
      hasWW T.key pw (rww k v pw s) = true →
      hasWW T.key pw s = true ∨ hasWW T.key false v = true ∨
        (ciPre T.W2 v = true ∧
          hasWW (T.W1 ++ T.sep :: k) pw s = true) := by
  intro n
  induction n with
  | zero =>
    intro s hs pw hm
    have hnil : s = [] := List.eq_nil_of_length_eq_zero (Nat.le_zero.1 hs)
    subst hnil
    rw [rww_nil] at hm
    exact Or.inl hm
  | succ n ih =>
    intro s hs pw hm
    cases s with
    | nil =>
      rw [rww_nil] at hm
      exact Or.inl hm
    | cons c s' =>
      by_cases hcond : (k ≠ [] ∧ wwFront k pw (c :: s') = true)
      · -- a substitution happened at the front
        rw [rww_cons_match v hcond.1 hcond.2, hklast] at hm
        have hpwf : pw = false := by
          have h0 := hcond.2
          rw [wwFront, Bool.and_eq_true] at h0
          cases pw
          · rfl
          · simp at h0
        have hkR := hcond.2
        rw [wwFront, Bool.and_eq_true, matchRest, Bool.and_eq_true] at hkR
        have hci : ciPre k (c :: s') = true := hkR.2.1
        have hdropEnd : endB ((c :: s').drop k.length) = true := hkR.2.2
        -- the matched front region of the input
        have hmne : (c :: s').take k.length ≠ [] := by
          cases hkl : k.length with
          | zero => exact absurd (List.eq_nil_of_length_eq_zero hkl) hkne
          | succ m => simp [List.take_succ_cons]
        have hmlast : wordChar (((c :: s').take k.length).getLastD ' ')
            = true := by
          rw [getLastD_wordChar_of_lcl hmne (lcl_take_of_ciPre hci)]
          exact hklast
        have htd : (c :: s').take k.length ++ (c :: s').drop k.length
            = c :: s' := List.take_append_drop _ _
        have hdlen : ((c :: s').drop k.length).length ≤ n := by
          have hk1 : 1 ≤ k.length := by
            cases hkl : k.length with
            | zero => exact absurd (List.eq_nil_of_length_eq_zero hkl) hkne
            | succ m => omega
          simp only [List.length_drop, List.length_cons]
          simp only [List.length_cons] at hs
          omega
        have hRend : endB (rww k v true ((c :: s').drop k.length))
            = true := by
          rw [endB_rww_true]
          exact hdropEnd
        rcases splitv2 T hgv.lc hgv.lastw hsfx v pw hRend
          (List.suffix_refl v) (fun h => absurd h hgv.ne) hm with h | h
        · right; left
          rw [hpwf] at h
          exact h
        · rcases ih ((c :: s').drop k.length) hdlen true h with
            h2 | h2 | ⟨hciw, h2⟩
          · left
            rw [← htd]
            exact hasWW_append_left h2 _ pw hmne hmlast
          · right; left
            exact h2
          · right; right
            refine ⟨hciw, ?_⟩
            rw [← htd]
            exact hasWW_append_left h2 _ pw hmne hmlast
      · -- no substitution at the front
        rw [rww_cons_nomatch v hcond] at hm
        rw [hasWW_cons, Bool.or_eq_true] at hm
        rcases hm with hm | hm
        · -- the key occurrence starts right here
          have hpwf : pw = false := by
            rw [wwFront, Bool.and_eq_true] at hm
            cases pw
            · rfl
            · simp at hm
          rw [wwFront, Bool.and_eq_true] at hm
          have hmr : matchRest T.key (rww k v pw (c :: s')) = true := by
            rw [rww_cons_nomatch v hcond]
            exact hm.2
          rcases peel2 T hklast hgv hsfx (c :: s').length (c :: s')
            (le_refl _) T.key pw (Or.inl ⟨rfl, hpwf⟩) hmr with
            h | h | ⟨hciw, p, rest, hps, hkey, hmk⟩
          · left
            apply hasWW_of_wwFront (by simp)
            rw [wwFront, Bool.and_eq_true, hpwf]
            exact ⟨rfl, h⟩
          · right; left
            exact h
          · -- first word + separator + rule key in the input
            right; right
            refine ⟨hciw, ?_⟩
            simp only [TWKey.key] at hkey
            have h0 : (T.W1 ++ [T.sep]) ++ T.W2 = lcl p ++ T.W2 := by
              rw [List.append_assoc, List.singleton_append]
              exact hkey
            have hcancel : T.W1 ++ [T.sep] = lcl p :=
              List.append_cancel_right h0
            have hplen : T.W1.length + 1 = p.length := by
              have hc := congrArg List.length hcancel
              simpa [lcl] using hc
            rw [matchRest, Bool.and_eq_true] at hmk
            apply hasWW_of_wwFront (by simp)
            rw [wwFront, Bool.and_eq_true, hpwf]
            refine ⟨rfl, ?_⟩
            rw [matchRest, Bool.and_eq_true, hps]
            constructor
            · have hQ : T.W1 ++ T.sep :: k = lcl p ++ k := by
                rw [← hcancel, List.append_assoc, List.singleton_append]
              rw [hQ]
              exact ciPre_append_parts (ciPre_lcl_self p) (by simp [lcl])
                hmk.1
            · have hQlen : (T.W1 ++ T.sep :: k).length
                  = p.length + k.length := by
                simp only [List.length_append, List.length_cons]
                omega
              rw [hQlen, ← List.drop_drop, List.drop_left]
              exact hmk.2
        · -- the key occurrence starts further right
          have hs' : s'.length ≤ n := by
            simp only [List.length_cons] at hs
            omega
          rcases ih s' hs' (wordChar c) hm with h | h | ⟨hciw, h⟩
          · left
            exact hasWW_of_tail h
          · right; left
            exact h
          · right; right
            exact ⟨hciw, hasWW_of_tail h⟩

end DreamKG

namespace DreamKG

/-- Splitting an occurrence of an all-word-character key across `u ++ R`
(`R` starting at a word boundary): no straddling is possible. -/
theorem splitv1 {K : List Char} (hKw : ∀ c ∈ K, wordChar c = true)
    {v : List Char} (hvlast : wordChar (v.getLastD ' ') = true) :
    ∀ (u : List Char) (pw : Bool) {R : List Char}, endB R = true →
      u <:+ v → (u = [] → pw = true) →
      hasWW K pw (u ++ R) = true →
      hasWW K pw u = true ∨ hasWW K true R = true := by
  intro u
  induction u with
  | nil =>
    intro pw R hR _ hpw h
    right
    rw [hpw rfl] at h
    simpa using h
  | cons c₀ u' ih =>
    intro pw R hR husfx _ h
    rw [List.cons_append, hasWW_cons, Bool.or_eq_true] at h
    rcases h with h | h
    · left
      rw [wwFront, Bool.and_eq_true, matchRest, Bool.and_eq_true] at h
      have hnpw := h.1
      have hci := h.2.1
      have hend := h.2.2
      rw [← List.cons_append] at hci hend
      have hciu : ciPre K (c₀ :: u') = true :=
        ciPre_allword_block hKw hR hci
      have hlen : K.length ≤ (c₀ :: u').length := ciPre_length hciu
      have hendu : endB ((c₀ :: u').drop K.length) = true := by
        rw [List.drop_append_of_le_length hlen, endB_append] at hend
        split at hend
        · rename_i hemp
          rw [List.isEmpty_iff] at hemp
          rw [hemp, endB]
        · exact hend
      rw [hasWW_cons, Bool.or_eq_true]
      left
      rw [wwFront, Bool.and_eq_true, matchRest, Bool.and_eq_true]
      exact ⟨hnpw, hciu, hendu⟩
    · have hu' : u' <:+ v := (List.suffix_cons c₀ u').trans husfx
      have hlast : u' = [] → wordChar c₀ = true := by
        intro hnil
        subst hnil
        have hgl : (([c₀] : List Char)).getLastD ' ' = v.getLastD ' ' :=
          getLastD_suffix husfx (by simp)
        simp only [List.getLastD_cons, List.getLastD_nil] at hgl
        rw [hgl]
        exact hvlast
      rcases ih (wordChar c₀) hR hu' hlast h with h | h
      · left
        exact hasWW_of_tail h
      · right
        exact h

/-- Scanning state for a single all-word-character key: at the start or
strictly inside. -/
def peelState1 (K K'' : List Char) (pw : Bool) : Prop :=
  (K'' = K ∧ pw = false) ∨
  (∃ Ka Kb, K = Ka ++ Kb ∧ Ka ≠ [] ∧ K'' = Kb ∧ pw = true)

/-- Peeling a front match of (a suffix of) an all-word-character key off
the output of one substitution. -/
theorem peel1 {K : List Char} (hKw : ∀ c ∈ K, wordChar c = true)
    {k v : List Char}
    (hklast : wordChar (k.getLastD ' ') = true) (hgv : GoodVal v) :
    ∀ (n : Nat) (s : List Char), s.length ≤ n →
      ∀ (K'' : List Char) (pw : Bool), peelState1 K K'' pw →
      matchRest K'' (rww k v pw s) = true →
      matchRest K'' s = true ∨ hasWW K false v = true := by
  intro n
  induction n with
  | zero =>
    intro s hs K'' pw _ hm
    have hnil : s = [] := List.eq_nil_of_length_eq_zero (Nat.le_zero.1 hs)
    subst hnil
    rw [rww_nil] at hm
    exact Or.inl hm
  | succ n ih =>
    intro s hs K'' pw hstate hm
    cases s with
    | nil =>
      rw [rww_nil] at hm
      exact Or.inl hm
    | cons c s' =>
      by_cases hcond : (k ≠ [] ∧ wwFront k pw (c :: s') = true)
      · rw [rww_cons_match v hcond.1 hcond.2, hklast] at hm
        have hpw : pw = false := by
          have h0 := hcond.2
          rw [wwFront, Bool.and_eq_true] at h0
          cases pw
          · rfl
          · simp at h0
        have hkR := hcond.2
        rw [wwFront, Bool.and_eq_true, matchRest, Bool.and_eq_true] at hkR
        have hRend : endB (rww k v true ((c :: s').drop k.length))
            = true := by
          rw [endB_rww_true]
          exact hkR.2.2
        rcases hstate with ⟨hK, _⟩ | ⟨_, _, _, _, _, hpw'⟩
        · -- the whole key matched against v ++ R: it lies inside v
          subst hK
          right
          rw [matchRest, Bool.and_eq_true] at hm
          apply hasWW_of_wwFront hgv.ne
          rw [wwFront, matchRest]
          have hciv : ciPre K'' v = true :=
            ciPre_allword_block hKw hRend hm.1
          have hlen : K''.length ≤ v.length := ciPre_length hciv
          have hendv : endB (v.drop K''.length) = true := by
            have h0 := hm.2
            rw [List.drop_append_of_le_length hlen, endB_append] at h0
            split at h0
            · rename_i hemp
              rw [List.isEmpty_iff] at hemp
              rw [hemp, endB]
            · exact h0
          rw [hciv, hendv]
          rfl
        · rw [hpw'] at hpw
          exact absurd hpw (by simp)
      · rw [rww_cons_nomatch v hcond] at hm
        cases K'' with
        | nil =>
          left
          rw [matchRest] at hm ⊢
          simpa [ciPre, endB] using hm
        | cons a t =>
          rw [matchRest, Bool.and_eq_true] at hm
          have hci := hm.1
          rw [ciPre, Bool.and_eq_true, beq_iff_eq] at hci
          have ha : Char.toLower c = a := hci.1
          have hwca : wordChar c = wordChar a := by
            rw [← ha, wordChar_toLower]
          have hend : endB ((rww k v (wordChar c) s').drop t.length)
              = true := by
            have h0 := hm.2
            rwa [List.length_cons, List.drop_succ_cons] at h0
          have hm' : matchRest t (rww k v (wordChar c) s') = true := by
            rw [matchRest, Bool.and_eq_true]
            exact ⟨hci.2, hend⟩
          have hstate' : peelState1 K t (wordChar c) := by
            rcases hstate with ⟨hK, _⟩ | ⟨Ka, Kb, hKsplit, _, hK, _⟩
            · right
              refine ⟨[a], t, by rw [← hK]; rfl, by simp, rfl, ?_⟩
              rw [hwca]
              exact hKw a (by rw [← hK]; exact List.mem_cons_self _ _)
            · right
              refine ⟨Ka ++ [a], t,
                by rw [hKsplit, ← hK, List.append_assoc]; rfl,
                by simp, rfl, ?_⟩
              rw [hwca]
              exact hKw a (by
                rw [hKsplit, ← hK]
                exact List.mem_append_right _ (List.mem_cons_self _ _))
          have hs' : s'.length ≤ n := by
            simp only [List.length_cons] at hs
            omega
          rcases ih s' hs' t (wordChar c) hstate' hm' with h | h
          · left
            rw [matchRest, Bool.and_eq_true] at h ⊢
            constructor
            · rw [ciPre, Bool.and_eq_true, beq_iff_eq]
              exact ⟨ha, h.1⟩
            · rw [List.length_cons, List.drop_succ_cons]
              exact h.2
          · right
            exact h

end DreamKG

namespace DreamKG

/-- Occurrence preservation through one substitution, all-word-character
key: an occurrence in the output was already in the input or lies in the
inserted value. -/
theorem master1 {K : List Char} (hKw : ∀ c ∈ K, wordChar c = true)
    {k v : List Char} (hkne : k ≠ [])
    (hklast : wordChar (k.getLastD ' ') = true) (hgv : GoodVal v) :
    ∀ (n : Nat) (s : List Char), s.length ≤ n → ∀ (pw : Bool),
      hasWW K pw (rww k v pw s) = true →
      hasWW K pw s = true ∨ hasWW K false v = true := by
  intro n
  induction n with
  | zero =>
    intro s hs pw hm
    have hnil : s = [] := List.eq_nil_of_length_eq_zero (Nat.le_zero.1 hs)
    subst hnil
    rw [rww_nil] at hm
    exact Or.inl hm
  | succ n ih =>
    intro s hs pw hm
    cases s with
    | nil =>
      rw [rww_nil] at hm
      exact Or.inl hm
    | cons c s' =>
      by_cases hcond : (k ≠ [] ∧ wwFront k pw (c :: s') = true)
      · rw [rww_cons_match v hcond.1 hcond.2, hklast] at hm
        have hpwf : pw = false := by
          have h0 := hcond.2
          rw [wwFront, Bool.and_eq_true] at h0
          cases pw
          · rfl
          · simp at h0
        have hkR := hcond.2
        rw [wwFront, Bool.and_eq_true, matchRest, Bool.and_eq_true] at hkR
        have hci : ciPre k (c :: s') = true := hkR.2.1
        have hdropEnd : endB ((c :: s').drop k.length) = true := hkR.2.2
        have hmne : (c :: s').take k.length ≠ [] := by
          cases hkl : k.length with
          | zero => exact absurd (List.eq_nil_of_length_eq_zero hkl) hkne
          | succ m => simp [List.take_succ_cons]
        have hmlast : wordChar (((c :: s').take k.length).getLastD ' ')
            = true := by
          rw [getLastD_wordChar_of_lcl hmne (lcl_take_of_ciPre hci)]
          exact hklast
        have htd : (c :: s').take k.length ++ (c :: s').drop k.length
            = c :: s' := List.take_append_drop _ _
        have hdlen : ((c :: s').drop k.length).length ≤ n := by
          have hk1 : 1 ≤ k.length := by
            cases hkl : k.length with
            | zero => exact absurd (List.eq_nil_of_length_eq_zero hkl) hkne
            | succ m => omega
          simp only [List.length_drop, List.length_cons]
          simp only [List.length_cons] at hs
          omega
        have hRend : endB (rww k v true ((c :: s').drop k.length))
            = true := by
          rw [endB_rww_true]
          exact hdropEnd
        rcases splitv1 hKw hgv.lastw v pw hRend (List.suffix_refl v)
          (fun h => absurd h hgv.ne) hm with h | h
        · right
          rw [hpwf] at h
          exact h
        · rcases ih ((c :: s').drop k.length) hdlen true h with h2 | h2
          · left
            rw [← htd]
            exact hasWW_append_left h2 _ pw hmne hmlast
          · right
            exact h2
      · rw [rww_cons_nomatch v hcond] at hm
        rw [hasWW_cons, Bool.or_eq_true] at hm
        rcases hm with hm | hm
        · have hpwf : pw = false := by
            rw [wwFront, Bool.and_eq_true] at hm
            cases pw
            · rfl
            · simp at hm
          rw [wwFront, Bool.and_eq_true] at hm
          have hmr : matchRest K (rww k v pw (c :: s')) = true := by
            rw [rww_cons_nomatch v hcond]
            exact hm.2
          rcases peel1 hKw hklast hgv (c :: s').length (c :: s')
            (le_refl _) K pw (Or.inl ⟨rfl, hpwf⟩) hmr with h | h
          · left
            apply hasWW_of_wwFront (by simp)
            rw [wwFront, Bool.and_eq_true, hpwf]
            exact ⟨rfl, h⟩
          · right
            exact h
        · have hs' : s'.length ≤ n := by
            simp only [List.length_cons] at hs
            omega
          rcases ih s' hs' (wordChar c) hm with h | h
          · left
            exact hasWW_of_tail h
          · right
            exact h

/-- A rule whose key is an all-word-character word eliminates every
whole-word occurrence of its own key (and creates none, provided its value
contains none). -/
theorem elim1 {K v : List Char} (hKne : K ≠ [])
    (hKw : ∀ c ∈ K, wordChar c = true)
    (hKlast : wordChar (K.getLastD ' ') = true) (hgv : GoodVal v)
    (hKv : hasWW K false v = false) :
    ∀ (n : Nat) (s : List Char), s.length ≤ n → ∀ (pw : Bool),
      hasWW K pw (rww K v pw s) = false := by
  intro n
  induction n with
  | zero =>
    intro s hs pw
    have hnil : s = [] := List.eq_nil_of_length_eq_zero (Nat.le_zero.1 hs)
    subst hnil
    rw [rww_nil]
    rfl
  | succ n ih =>
    intro s hs pw
    cases s with
    | nil =>
      rw [rww_nil]
      rfl
    | cons c s' =>
      by_cases hcond : (K ≠ [] ∧ wwFront K pw (c :: s') = true)
      · rw [rww_cons_match v hcond.1 hcond.2, hKlast]
        have hpwf : pw = false := by
          have h0 := hcond.2
          rw [wwFront, Bool.and_eq_true] at h0
          cases pw
          · rfl
          · simp at h0
        have hKR := hcond.2
        rw [wwFront, Bool.and_eq_true, matchRest, Bool.and_eq_true] at hKR
        have hdlen : ((c :: s').drop K.length).length ≤ n := by
          have hk1 : 1 ≤ K.length := by
            cases hkl : K.length with
            | zero => exact absurd (List.eq_nil_of_length_eq_zero hkl) hKne
            | succ m => omega
          simp only [List.length_drop, List.length_cons]
          simp only [List.length_cons] at hs
          omega
        have hRend : endB (rww K v true ((c :: s').drop K.length))
            = true := by
          rw [endB_rww_true]
          exact hKR.2.2
        rw [Bool.eq_false_iff]
        intro h
        rcases splitv1 hKw hgv.lastw v pw hRend (List.suffix_refl v)
          (fun hh => absurd hh hgv.ne) h with h1 | h1
        · rw [hpwf] at h1
          rw [hKv] at h1
          exact Bool.false_ne_true h1
        · rw [ih ((c :: s').drop K.length) hdlen true] at h1
          exact Bool.false_ne_true h1
      · rw [rww_cons_nomatch v hcond, hasWW_cons, Bool.or_eq_false_iff]
        constructor
        · rw [Bool.eq_false_iff]
          intro h
          have hpwf : pw = false := by
            rw [wwFront, Bool.and_eq_true] at h
            cases pw
            · rfl
            · simp at h
          rw [wwFront, Bool.and_eq_true] at h
          have hmr : matchRest K (rww K v pw (c :: s')) = true := by
            rw [rww_cons_nomatch v hcond]
            exact h.2
          rcases peel1 hKw hKlast hgv (c :: s').length (c :: s')
            (le_refl _) K pw (Or.inl ⟨rfl, hpwf⟩) hmr with h2 | h2
          · exact hcond ⟨hKne, by
              rw [wwFront, Bool.and_eq_true, hpwf]
              exact ⟨rfl, h2⟩⟩
          · rw [hKv] at h2
            exact Bool.false_ne_true h2
        · have hs' : s'.length ≤ n := by
            simp only [List.length_cons] at hs
            omega
          exact ih s' hs' (wordChar c)

/-- A rule whose key is a two-word phrase eliminates every whole-word
occurrence of its own key, provided its value contains none, does not end
in the first word, and does not start like the second word. -/
theorem elim2 (T : TWKey) {v : List Char} (hgv : GoodVal v)
    (hKlast : wordChar (T.key.getLastD ' ') = true)
    (hsfx : ∀ u, u <:+ v → u = T.W1 → False)
    (hKv : hasWW T.key false v = false)
    (hciW2 : ciPre T.W2 v = false) :
    ∀ (n : Nat) (s : List Char), s.length ≤ n → ∀ (pw : Bool),
      hasWW T.key pw (rww T.key v pw s) = false := by
  have hKne : T.key ≠ [] := by
    rw [TWKey.key]
    simp
  intro n
  induction n with
  | zero =>
    intro s hs pw
    have hnil : s = [] := List.eq_nil_of_length_eq_zero (Nat.le_zero.1 hs)
    subst hnil
    rw [rww_nil]
    rfl
  | succ n ih =>
    intro s hs pw
    cases s with
    | nil =>
      rw [rww_nil]
      rfl
    | cons c s' =>
      by_cases hcond : (T.key ≠ [] ∧ wwFront T.key pw (c :: s') = true)
      · rw [rww_cons_match v hcond.1 hcond.2, hKlast]
        have hpwf : pw = false := by
          have h0 := hcond.2
          rw [wwFront, Bool.and_eq_true] at h0
          cases pw
          · rfl
          · simp at h0
        have hKR := hcond.2
        rw [wwFront, Bool.and_eq_true, matchRest, Bool.and_eq_true] at hKR
        have hdlen : ((c :: s').drop T.key.length).length ≤ n := by
          have hk1 : 1 ≤ T.key.length := by
            cases hkl : T.key.length with
            | zero => exact absurd (List.eq_nil_of_length_eq_zero hkl) hKne
            | succ m => omega
          simp only [List.length_drop, List.length_cons]
          simp only [List.length_cons] at hs
          omega
        have hRend : endB (rww T.key v true ((c :: s').drop T.key.length))
            = true := by
          rw [endB_rww_true]
          exact hKR.2.2
        rw [Bool.eq_false_iff]
        intro h
        rcases splitv2 T hgv.lc hgv.lastw hsfx v pw hRend
          (List.suffix_refl v) (fun hh => absurd hh hgv.ne) h with h1 | h1
        · rw [hpwf] at h1
          rw [hKv] at h1
          exact Bool.false_ne_true h1
        · rw [ih ((c :: s').drop T.key.length) hdlen true] at h1
          exact Bool.false_ne_true h1
      · rw [rww_cons_nomatch v hcond, hasWW_cons, Bool.or_eq_false_iff]
        constructor
        · rw [Bool.eq_false_iff]
          intro h
          have hpwf : pw = false := by
            rw [wwFront, Bool.and_eq_true] at h
            cases pw
            · rfl
            · simp at h
          rw [wwFront, Bool.and_eq_true] at h
          have hmr : matchRest T.key (rww T.key v pw (c :: s')) = true := by
            rw [rww_cons_nomatch v hcond]
            exact h.2
          rcases peel2 T hKlast hgv hsfx (c :: s').length (c :: s')
            (le_refl _) T.key pw (Or.inl ⟨rfl, hpwf⟩) hmr with
            h2 | h2 | ⟨hciw, _⟩
          · exact hcond ⟨hKne, by
              rw [wwFront, Bool.and_eq_true, hpwf]
              exact ⟨rfl, h2⟩⟩
          · rw [hKv] at h2
            exact Bool.false_ne_true h2
          · rw [hciW2] at hciw
            exact Bool.false_ne_true hciw
        · have hs' : s'.length ≤ n := by
            simp only [List.length_cons] at hs
            omega
          exact ih s' hs' (wordChar c)

end DreamKG

namespace DreamKG

/-- `self.keyword_normalizations` (query_service.py lines 134-213), in
dict insertion order; the literal repeats `'meals'`/`'meal'` with the same
value, which in a Python dict keeps first position and is dropped here. -/
def keyword_normalizations : List (String × String) :=
  [("wifi", "wi-fi"), ("internet", "wi-fi"), ("wireless", "wi-fi"),
   ("meal", "food"), ("meals", "food"), ("dining", "food"),
   ("lunch", "food"), ("dinner", "food"), ("breakfast", "food"),
   ("appeals", "appeal"), ("benefits", "benefit"),
   ("applications", "apply"), ("computers", "computer"),
   ("classes", "class"), ("workshops", "workshop"),
   ("programs", "program"), ("collections", "collection"),
   ("rooms", "room"), ("spaces", "space"), ("events", "event"),
   ("services", "service"), ("books", "book"), ("cards", "card"),
   ("statements", "statement"), ("estimates", "estimate"),
   ("housing", "shelter"), ("stay", "shelter"), ("clothes", "clothing"),
   ("printing", "print"), ("copying", "copy"), ("scanning", "scan"),
   ("tutoring", "homework help"), ("employment", "job assistance"),
   ("storytime", "story time"), ("after-school", "after school"),
   ("programming", "coding"), ("audiobooks", "audio"),
   ("bathroom", "restroom"), ("conference", "meeting room"),
   ("quiet space", "study room"), ("return", "book drop"),
   ("shipping", "mail delivery"), ("wellness", "health"),
   ("movies", "film"), ("cash", "atm"), ("express", "overnight"),
   ("rush", "overnight"), ("addiction", "substance abuse"),
   ("recovery", "substance abuse"), ("sober living", "substance abuse"),
   ("detox", "substance abuse"), ("therapy", "mental health"),
   ("counseling", "mental health"), ("appealing", "appeal"),
   ("disputing", "appeal"), ("challenging", "appeal"),
   ("applying", "apply"), ("filing", "apply"),
   ("requesting", "request"), ("changing", "change"),
   ("updating", "change"), ("calculating", "estimate"),
   ("learning", "class"), ("studying", "study"), ("gaming", "game"),
   ("teaching", "class"), ("training", "class")]

def normTable : List (List Char × List Char) :=
  keyword_normalizations.map (fun r => (r.1.toList, r.2.toList))

/-- One iteration of the normalization loop: substitute if the key occurs
in the lowercase of the original query. -/
def ruleStep (ql q : List Char) (r : List Char × List Char) : List Char :=
  if isSub r.1 ql = true then rww r.1 r.2 false q else q

def normalizeC (q : List Char) : List Char :=
  normTable.foldl (ruleStep (lcl q)) q

/-- `QueryService._normalize_service_keywords` (query_service.py lines
925-942). -/
def normalize_service_keywords (query : String) : String :=
  ⟨normalizeC query.toList⟩

/-- Well-formedness of one table entry: key and value non-empty and
lowercase, both ending in a word character. -/
def ruleWF (r : List Char × List Char) : Bool :=
  decide (r.1 ≠ []) && wordChar (r.1.getLastD ' ') && (lcl r.1 == r.1) &&
  decide (r.2 ≠ []) && (lcl r.2 == r.2) && wordChar (r.2.getLastD ' ')

theorem ruleWF_spec {r : List Char × List Char} (h : ruleWF r = true) :
    r.1 ≠ [] ∧ wordChar (r.1.getLastD ' ') = true ∧ GoodVal r.2 := by
  simp only [ruleWF, Bool.and_eq_true, decide_eq_true_eq,
    beq_iff_eq] at h
  exact ⟨h.1.1.1.1.1, h.1.1.1.1.2, h.1.1.2, h.1.2, h.2⟩

/-- Absence of a whole-word occurrence of an all-word-character key is
preserved by a run of substitution steps none of whose values contains
the key. -/
theorem chain1 {K : List Char} (hKw : ∀ c ∈ K, wordChar c = true)
    (ql : List Char) :
    ∀ (rs : List (List Char × List Char)) (x : List Char),
      (∀ r ∈ rs, ruleWF r = true ∧ hasWW K false r.2 = false) →
      hasWW K false x = false →
      hasWW K false (rs.foldl (ruleStep ql) x) = false := by
  intro rs
  induction rs with
  | nil => intro x _ h0; exact h0
  | cons r rs ih =>
    intro x hall h0
    simp only [List.foldl_cons]
    apply ih _ (fun r' hr' => hall r' (List.mem_cons_of_mem _ hr'))
    obtain ⟨hwf, hKv⟩ := hall r (List.mem_cons_self _ _)
    obtain ⟨hkne, hklast, hgv⟩ := ruleWF_spec hwf
    rw [ruleStep]
    split
    · rw [Bool.eq_false_iff]
      intro h
      rcases master1 hKw hkne hklast hgv x.length x (le_refl _) false h
        with h1 | h1
      · rw [h0] at h1
        exact Bool.false_ne_true h1
      · rw [hKv] at h1
        exact Bool.false_ne_true h1
    · exact h0

/-- Absence of a whole-word occurrence of a two-word key is preserved by a
run of substitution steps whose values neither contain the key, nor end in
its first word, nor start like its second word. -/
theorem chain2 (T : TWKey) (ql : List Char) :
    ∀ (rs : List (List Char × List Char)) (x : List Char),
      (∀ r ∈ rs, ruleWF r = true ∧ hasWW T.key false r.2 = false ∧
        ciPre T.W2 r.2 = false ∧ ¬(T.W1 <:+ r.2)) →
      hasWW T.key false x = false →
      hasWW T.key false (rs.foldl (ruleStep ql) x) = false := by
  intro rs
  induction rs with
  | nil => intro x _ h0; exact h0
  | cons r rs ih =>
    intro x hall h0
    simp only [List.foldl_cons]
    apply ih _ (fun r' hr' => hall r' (List.mem_cons_of_mem _ hr'))
    obtain ⟨hwf, hKv, hciW2, hnsfx⟩ := hall r (List.mem_cons_self _ _)
    obtain ⟨hkne, hklast, hgv⟩ := ruleWF_spec hwf
    rw [ruleStep]
    split
    · rw [Bool.eq_false_iff]
      intro h
      rcases master2 T hkne hklast hgv
        (fun u hu hue => absurd (hue ▸ hu) hnsfx) x.length x (le_refl _)
        false h with h1 | h1 | ⟨hciw, _⟩
      · rw [h0] at h1
        exact Bool.false_ne_true h1
      · rw [hKv] at h1
        exact Bool.false_ne_true h1
      · rw [hciW2] at hciw
        exact Bool.false_ne_true hciw
    · exact h0

/-- After the whole normalization run, an all-word-character key of the
table has no whole-word occurrence left: its own rule (if triggered)
removed them all, no value re-creates one, and an untriggered key was
never present. -/
theorem absence1 {K v : List Char} {pre post : List (List Char × List Char)}
    (hsplit : normTable = pre ++ (K, v) :: post)
    (hKw : ∀ c ∈ K, wordChar c = true)
    (hall : ∀ r ∈ normTable, ruleWF r = true ∧ hasWW K false r.2 = false)
    (q : List Char) :
    hasWW K false (normalizeC q) = false := by
  have hown : (K, v) ∈ normTable := by
    rw [hsplit]
    exact List.mem_append_right _ (List.mem_cons_self _ _)
  obtain ⟨hwf, hKv⟩ := hall (K, v) hown
  obtain ⟨hKne, hKlast, hgv⟩ := ruleWF_spec hwf
  rw [normalizeC]
  by_cases ht : isSub K (lcl q) = true
  · rw [hsplit, List.foldl_append, List.foldl_cons]
    apply chain1 hKw _ post _ (fun r hr => hall r (by
      rw [hsplit]
      exact List.mem_append_right _ (List.mem_cons_of_mem _ hr)))
    rw [ruleStep, if_pos ht]
    exact elim1 hKne hKw hKlast hgv hKv _ _ (le_refl _) false
  · apply chain1 hKw _ normTable q hall
    rw [Bool.eq_false_iff]
    intro h
    exact ht (isSub_of_hasWW h)

/-- The two-word analogue of `absence1`, for keys whose second word starts
no value (so no occurrence can be assembled across a substitution). -/
theorem absence2 (T : TWKey) {v : List Char}
    {pre post : List (List Char × List Char)}
    (hsplit : normTable = pre ++ (T.key, v) :: post)
    (hall : ∀ r ∈ normTable, ruleWF r = true ∧
      hasWW T.key false r.2 = false ∧ ciPre T.W2 r.2 = false ∧
      ¬(T.W1 <:+ r.2))
    (q : List Char) :
    hasWW T.key false (normalizeC q) = false := by
  have hown : (T.key, v) ∈ normTable := by
    rw [hsplit]
    exact List.mem_append_right _ (List.mem_cons_self _ _)
  obtain ⟨hwf, hKv, hciW2, hnsfx⟩ := hall (T.key, v) hown
  obtain ⟨hKne, hKlast, hgv⟩ := ruleWF_spec hwf
  rw [normalizeC]
  by_cases ht : isSub T.key (lcl q) = true
  · rw [hsplit, List.foldl_append, List.foldl_cons]
    apply chain2 T _ post _ (fun r hr => hall r (by
      rw [hsplit]
      exact List.mem_append_right _ (List.mem_cons_of_mem _ hr)))
    rw [ruleStep, if_pos ht]
    exact elim2 T hgv hKlast (fun u hu hue => absurd (hue ▸ hu) hnsfx)
      hKv hciW2 _ _ (le_refl _) false
  · apply chain2 T _ normTable q hall
    rw [Bool.eq_false_iff]
    intro h
    exact ht (isSub_of_hasWW h)

end DreamKG

namespace DreamKG

set_option maxRecDepth 4096 in
theorem table_wf : ∀ r ∈ normTable, ruleWF r = true := by decide

set_option maxRecDepth 8192 in
theorem table_pairs :
    ∀ r1 ∈ normTable, ∀ r2 ∈ normTable, hasWW r1.1 false r2.2 = false := by
  decide

/-- The two-word key `'quiet space'`. -/
def Tqs : TWKey :=
  ⟨"quiet".toList, ' ', "space".toList, by decide, by decide, by decide,
    by decide, by decide⟩

/-- The phrase `'quiet spaces'` (first word, separator, then the key of
the `'spaces'` rule): the only phrase whose substitution can manufacture
`'quiet space'`. -/
def Tqsp : TWKey :=
  ⟨"quiet".toList, ' ', "spaces".toList, by decide, by decide, by decide,
    by decide, by decide⟩

/-- The two-word key `'sober living'`. -/
def Tsl : TWKey :=
  ⟨"sober".toList, ' ', "living".toList, by decide, by decide, by decide,
    by decide, by decide⟩

/-- The two-word key `'after-school'`. -/
def Tas : TWKey :=
  ⟨"after".toList, '-', "school".toList, by decide, by decide, by decide,
    by decide, by decide⟩

set_option maxRecDepth 4096 in
theorem sober_conds : ∀ r ∈ normTable, ruleWF r = true ∧
    hasWW Tsl.key false r.2 = false ∧ ciPre Tsl.W2 r.2 = false ∧
    ¬(Tsl.W1 <:+ r.2) := by decide

set_option maxRecDepth 4096 in
theorem after_conds : ∀ r ∈ normTable, ruleWF r = true ∧
    hasWW Tas.key false r.2 = false ∧ ciPre Tas.W2 r.2 = false ∧
    ¬(Tas.W1 <:+ r.2) := by decide

set_option maxRecDepth 4096 in
theorem qs_pre_conds : ∀ r ∈ normTable.take 18, ruleWF r = true ∧
    hasWW Tqs.key false r.2 = false ∧ ciPre Tqs.W2 r.2 = false ∧
    ¬(Tqs.W1 <:+ r.2) := by decide

set_option maxRecDepth 4096 in
theorem qsp_pre_conds : ∀ r ∈ normTable.take 18, ruleWF r = true ∧
    hasWW Tqsp.key false r.2 = false ∧ ciPre Tqsp.W2 r.2 = false ∧
    ¬(Tqsp.W1 <:+ r.2) := by decide

set_option maxRecDepth 4096 in
theorem qs_rest_conds : ∀ r ∈ normTable.drop 19, ruleWF r = true ∧
    hasWW Tqs.key false r.2 = false ∧ ciPre Tqs.W2 r.2 = false ∧
    ¬(Tqs.W1 <:+ r.2) := by decide

set_option maxRecDepth 4096 in
theorem qs_post_conds : ∀ r ∈ normTable.drop 40, ruleWF r = true ∧
    hasWW Tqs.key false r.2 = false ∧ ciPre Tqs.W2 r.2 = false ∧
    ¬(Tqs.W1 <:+ r.2) := by decide

theorem sober_absent (q : List Char) :
    hasWW Tsl.key false (normalizeC q) = false :=
  @absence2 Tsl "substance abuse".toList (normTable.take 49)
    (normTable.drop 50) (by rfl) sober_conds q

theorem after_absent (q : List Char) :
    hasWW Tas.key false (normalizeC q) = false :=
  @absence2 Tas "after school".toList (normTable.take 34)
    (normTable.drop 35) (by rfl) after_conds q

/-- `'quiet space'` never survives the normalization run: if its rule
fired it removed every occurrence and no later value restores one; if its
rule did not fire, the key — and the phrase `'quiet spaces'`, which the
`'spaces'` rule would contract into it — was never in the query. -/
theorem quiet_space_absent (q : List Char) :
    hasWW Tqs.key false (normalizeC q) = false := by
  rw [normalizeC]
  by_cases ht : isSub Tqs.key (lcl q) = true
  · have hsplit : normTable = normTable.take 39 ++
        (Tqs.key, "study room".toList) :: normTable.drop 40 := by rfl
    rw [hsplit, List.foldl_append, List.foldl_cons]
    apply chain2 Tqs _ (normTable.drop 40) _ qs_post_conds
    rw [ruleStep, if_pos ht]
    exact elim2 Tqs ⟨by decide, by decide, by decide⟩ (by decide)
      (fun u hu hue => absurd (hue ▸ hu) (by decide)) (by decide)
      (by decide) _ _ (le_refl _) false
  · have h0 : hasWW Tqs.key false q = false := by
      rw [Bool.eq_false_iff]
      intro h
      exact ht (isSub_of_hasWW h)
    have hQ0 : hasWW Tqsp.key false q = false := by
      rw [Bool.eq_false_iff]
      intro h
      exact ht (isSub_mono (by decide) (isSub_of_hasWW h))
    have hK18 := chain2 Tqs (lcl q) (normTable.take 18) q qs_pre_conds h0
    have hQ18 := chain2 Tqsp (lcl q) (normTable.take 18) q qsp_pre_conds hQ0
    have hsplit : normTable = normTable.take 18 ++
        ("spaces".toList, "space".toList) :: normTable.drop 19 := by rfl
    rw [hsplit, List.foldl_append, List.foldl_cons]
    apply chain2 Tqs _ (normTable.drop 19) _ qs_rest_conds
    rw [ruleStep]
    split
    · rw [Bool.eq_false_iff]
      intro h
      rcases @master2 Tqs "spaces".toList "space".toList (by decide)
        (by decide) ⟨by decide, by decide, by decide⟩
        (fun u hu hue => absurd (hue ▸ hu) (by decide)) _ _ (le_refl _)
        false h with h1 | h1 | ⟨_, h2⟩
      · rw [hK18] at h1
        exact Bool.false_ne_true h1
      · exact absurd h1 (by decide)
      · have h3 : hasWW Tqsp.key false
            (List.foldl (ruleStep (lcl q)) q (normTable.take 18))
            = true := h2
        rw [hQ18] at h3
        exact Bool.false_ne_true h3
    · exact hK18

set_option maxRecDepth 4096 in
theorem key_classes : ∀ r ∈ normTable,
    (∀ c ∈ r.1, wordChar c = true) ∨
    r.1 = Tqs.key ∨ r.1 = Tsl.key ∨ r.1 = Tas.key := by decide

/-- After the full normalization run, no key of the table occurs as a
whole word in the result. -/
theorem all_keys_absent (q : List Char) :
    ∀ r ∈ normTable, hasWW r.1 false (normalizeC q) = false := by
  intro r hr
  rcases key_classes r hr with hw | h | h | h
  · obtain ⟨pre, post, hsplit⟩ := List.append_of_mem hr
    exact absence1 hsplit hw
      (fun r' hr' => ⟨table_wf r' hr', table_pairs r hr r' hr'⟩) q
  · rw [h]
    exact quiet_space_absent q
  · rw [h]
    exact sober_absent q
  · rw [h]
    exact after_absent q

/-- A run of substitution steps for keys none of which occurs is the
identity. -/
theorem foldl_ruleStep_id (ql : List Char) :
    ∀ (rs : List (List Char × List Char)) (x : List Char),
      (∀ r ∈ rs, hasWW r.1 false x = false) →
      rs.foldl (ruleStep ql) x = x := by
  intro rs
  induction rs with
  | nil => intro x _; rfl
  | cons r rs ih =>
    intro x h
    simp only [List.foldl_cons]
    have hstep : ruleStep ql x r = x := by
      rw [ruleStep]
      split
      · exact rww_eq_self (h r (List.mem_cons_self _ _))
      · rfl
    rw [hstep]
    exact ih x (fun r' hr' => h r' (List.mem_cons_of_mem _ hr'))

theorem normalizeC_idem (q : List Char) :
    normalizeC (normalizeC q) = normalizeC q := by
  show normTable.foldl (ruleStep (lcl (normalizeC q))) (normalizeC q)
    = normalizeC q
  exact foldl_ruleStep_id _ normTable _ (all_keys_absent q)

/-- C8: keyword normalization is an idempotent, deterministic, total
function on query text: for every input string, normalizing twice gives
the same result as normalizing once, and the empty string normalizes to
the empty string. -/
theorem normalize_service_keywords_idempotent :
    (∀ x : String, normalize_service_keywords (normalize_service_keywords x)
      = normalize_service_keywords x) ∧
    normalize_service_keywords "" = "" := by
  constructor
  · intro x
    exact congrArg String.mk (normalizeC_idem x.toList)
  · rfl

end DreamKG
